import Mathlib

/-!
Verification of the message-reassembly and dispatch engine of the
centralized-server networking client
(`src/traits/networking/centralized_server_network.rs`).

Payload bytes are modelled as `List Nat`; bincode (de)serialization is an
external collaborator and is modelled as an abstract function
`des : List Nat → Option M` (`none` = deserialization error).
Channels are modelled as the lists of items they deliver; the incoming
queue is a `List (FromServer K × List Nat)` exactly as in the source.
-/

namespace CS

/-- Header type for frames received from the server (`FromServer<K>`).
`Config` carries data only used by the bootstrap dialog, which is out of
scope, so it is modelled as a bare tag. -/
inductive FromServer (K : Type) where
  | NodeConnected (key : K)
  | NodeDisconnected (key : K)
  | Broadcast (source : K) (message_len : Nat) (payload_len : Nat)
  | BroadcastPayload (source : K) (payload_len : Nat)
  | Direct (source : K) (message_len : Nat) (payload_len : Nat)
  | DirectPayload (source : K) (payload_len : Nat)
  | ClientCount (count : Nat)
  | Config
  | Start
deriving DecidableEq

/-- Header type for frames sent to the server (`ToServer<K>`).
`Results` carries run results, out of scope, modelled as a bare tag. -/
inductive ToServer (K : Type) where
  | Identify (key : K)
  | Broadcast (message_len : Nat)
  | Direct (target : K) (message_len : Nat)
  | RequestClientCount
  | GetConfig
  | Results
deriving DecidableEq

/-- One inbound frame: a header together with its raw payload bytes,
as stored in `incoming_queue: Vec<(FromServer<K>, Vec<u8>)>`. -/
abbrev Frame (K : Type) := FromServer K × List Nat

/-- The per-source reassembly context `MsgStepContext`. -/
structure MsgStepContext where
  consumed_indexes : Finset Nat
  message_len : Nat
  accumulated_stream : List Nat
deriving DecidableEq

/-- The outcome of one step of the interleaved-stream state machine
(`MsgStepOutcome<RET>`). -/
inductive MsgStepOutcome (RET : Type) where
  | Skip
  | Begin
  | Continue
  | Complete (indexes : Finset Nat) (ret : RET)

/-- The `HashMap<K, MsgStepContext>` threaded through an extraction,
modelled as a function into `Option`. -/
abbrev CtxMap (K : Type) := K → Option MsgStepContext

/-- The empty context map (a fresh `HashMap::new()`). -/
def ctxEmpty {K : Type} : CtxMap K := fun _ => none

/-- `HashMap::insert` on the context map. -/
def ctxInsert {K : Type} [DecidableEq K] (m : CtxMap K) (k : K)
    (c : MsgStepContext) : CtxMap K :=
  fun x => if x = k then some c else m x

/-- `Entry::remove_entry` on the context map. -/
def ctxErase {K : Type} [DecidableEq K] (m : CtxMap K) (k : K) : CtxMap K :=
  fun x => if x = k then none else m x

/-- The type of the stepping closures `c` given to the extraction
functions.  The Rust closure mutates the context map in place; here it
returns the updated map. -/
abbrev StepFn (K RET : Type) :=
  Frame K → Nat → CtxMap K → MsgStepOutcome RET × CtxMap K

/-- The stepping closure used by `get_broadcasts` / `get_next_broadcast`,
parameterized by the result-producing deserializer `d` (the two call
sites differ only in whether the bincode error is wrapped into a
`NetworkError`). -/
def broadcastStep {K RET : Type} [DecidableEq K] (d : List Nat → RET) :
    StepFn K RET :=
  fun msg index ctx =>
    match msg with
    | (FromServer.Broadcast source message_len _, payload) =>
      if payload.length < message_len then
        (MsgStepOutcome.Begin,
          ctxInsert ctx source
            { consumed_indexes := {index}
              message_len := message_len
              accumulated_stream := payload })
      else if message_len < payload.length then
        (MsgStepOutcome.Skip, ctx)
      else
        (MsgStepOutcome.Complete {index} (d payload), ctx)
    | (FromServer.BroadcastPayload source _, payload) =>
      match ctx source with
      | some c0 =>
        if c0.accumulated_stream = [] ∧ c0.message_len = payload.length then
          (MsgStepOutcome.Complete (insert index c0.consumed_indexes) (d payload),
            ctxErase ctx source)
        else
          if (c0.accumulated_stream ++ payload).length < c0.message_len then
            (MsgStepOutcome.Continue,
              ctxInsert ctx source
                { consumed_indexes := insert index c0.consumed_indexes
                  message_len := c0.message_len
                  accumulated_stream := c0.accumulated_stream ++ payload })
          else if c0.message_len < (c0.accumulated_stream ++ payload).length then
            (MsgStepOutcome.Skip, ctxErase ctx source)
          else
            (MsgStepOutcome.Complete (insert index c0.consumed_indexes)
                (d (c0.accumulated_stream ++ payload)),
              ctxErase ctx source)
      | none => (MsgStepOutcome.Skip, ctx)
    | (_, _) => (MsgStepOutcome.Skip, ctx)

/-- The stepping closure used by `get_direct_messages` /
`get_next_direct_message`; identical to the broadcast one but keyed on
`Direct` / `DirectPayload` headers. -/
def directStep {K RET : Type} [DecidableEq K] (d : List Nat → RET) :
    StepFn K RET :=
  fun msg index ctx =>
    match msg with
    | (FromServer.Direct source message_len _, payload) =>
      if payload.length < message_len then
        (MsgStepOutcome.Begin,
          ctxInsert ctx source
            { consumed_indexes := {index}
              message_len := message_len
              accumulated_stream := payload })
      else if message_len < payload.length then
        (MsgStepOutcome.Skip, ctx)
      else
        (MsgStepOutcome.Complete {index} (d payload), ctx)
    | (FromServer.DirectPayload source _, payload) =>
      match ctx source with
      | some c0 =>
        if c0.accumulated_stream = [] ∧ c0.message_len = payload.length then
          (MsgStepOutcome.Complete (insert index c0.consumed_indexes) (d payload),
            ctxErase ctx source)
        else
          if (c0.accumulated_stream ++ payload).length < c0.message_len then
            (MsgStepOutcome.Continue,
              ctxInsert ctx source
                { consumed_indexes := insert index c0.consumed_indexes
                  message_len := c0.message_len
                  accumulated_stream := c0.accumulated_stream ++ payload })
          else if c0.message_len < (c0.accumulated_stream ++ payload).length then
            (MsgStepOutcome.Skip, ctxErase ctx source)
          else
            (MsgStepOutcome.Complete (insert index c0.consumed_indexes)
                (d (c0.accumulated_stream ++ payload)),
              ctxErase ctx source)
      | none => (MsgStepOutcome.Skip, ctx)
    | (_, _) => (MsgStepOutcome.Skip, ctx)

/-- Scan of the frame list performed by `remove_messages_from_queue`:
returns the collected results, the accumulated `dead_indexes` and the
final context map. -/
def scanFrames {K RET : Type} (c : StepFn K RET) :
    List (Frame K) → Nat → CtxMap K → List RET × Finset Nat × CtxMap K
  | [], _, ctx => ([], ∅, ctx)
  | msg :: rest, i, ctx =>
    match c msg i ctx with
    | (MsgStepOutcome.Complete idxs ret, ctx1) =>
      let r := scanFrames c rest (i + 1) ctx1
      (ret :: r.1, idxs ∪ r.2.1, r.2.2)
    | (_, ctx1) => scanFrames c rest (i + 1) ctx1

/-- Removal of the frames at the index positions in `dead`, with indexing
starting at `i` (the `enumerate().filter_map(..)` rebuild). -/
def filterIdxFrom {α : Type} (dead : Finset Nat) : List α → Nat → List α
  | [], _ => []
  | a :: rest, i =>
    if i ∈ dead then filterIdxFrom dead rest (i + 1)
    else a :: filterIdxFrom dead rest (i + 1)

/-- Removal of the frames at the index positions in `dead`. -/
def filterIndexes {α : Type} (l : List α) (dead : Finset Nat) : List α :=
  filterIdxFrom dead l 0

/-- `Inner::remove_messages_from_queue`: the non-blocking extraction.
`incoming_queue` is the snapshot of the persistent buffer,
`temp_queue` the items drained from the receive channel.  Returns the
collected results and the new persistent buffer. -/
def remove_messages_from_queue {K RET : Type} [DecidableEq K] (c : StepFn K RET)
    (incoming_queue temp_queue : List (Frame K)) :
    List RET × List (Frame K) :=
  let s := scanFrames c (incoming_queue ++ temp_queue) 0 ctxEmpty
  let dead_indexes := s.2.1
  let unchanged := (dead_indexes = ∅ ∧ temp_queue = []) ∨
    (dead_indexes.min = (incoming_queue.length : WithTop Nat) ∧
      dead_indexes.card = temp_queue.length)
  if unchanged then (s.1, incoming_queue)
  else (s.1, filterIndexes (incoming_queue ++ temp_queue) dead_indexes)

/-- The always-rebuild variant of the non-blocking extraction: the buffer
is unconditionally rebuilt as the concatenation minus consumed indexes
(the specification-side description, without the unchanged fast path). -/
def remove_messages_rebuild {K RET : Type} (c : StepFn K RET)
    (incoming_queue temp_queue : List (Frame K)) :
    List RET × List (Frame K) :=
  let s := scanFrames c (incoming_queue ++ temp_queue) 0 ctxEmpty
  (s.1, filterIndexes (incoming_queue ++ temp_queue) s.2.1)

/-- First phase of `Inner::remove_next_message_from_queue`: scan the
snapshot of the persistent buffer for the first `Complete`. -/
def scanQueuePhase {K RET : Type} (c : StepFn K RET) :
    List (Frame K) → Nat → CtxMap K → Option (Finset Nat × RET) × CtxMap K
  | [], _, ctx => (none, ctx)
  | msg :: rest, i, ctx =>
    match c msg i ctx with
    | (MsgStepOutcome.Complete idxs ret, ctx1) => (some (idxs, ret), ctx1)
    | (_, ctx1) => scanQueuePhase c rest (i + 1) ctx1

/-- Second phase of `Inner::remove_next_message_from_queue`: read items
from the receive channel one by one (modelled by the list of items the
channel yields before closing), pushing non-matching items onto
`temp_queue`.  On a `Complete` the fast path keeps the buffer untouched
when the consumed indexes start at `temp_start_index` and number exactly
`temp_queue.length + 1`; otherwise it rebuilds.  On channel closure the
read items are appended back and `f` produces the result. -/
def chanPhase {K RET : Type} (c : StepFn K RET) (f : Nat → CtxMap K → RET)
    (incoming_queue : List (Frame K)) (temp_start_index : Nat) :
    List (Frame K) → List (Frame K) → CtxMap K → RET × List (Frame K)
  | temp_queue, [], ctx =>
    (f (incoming_queue.length + temp_queue.length) ctx,
      incoming_queue ++ temp_queue)
  | temp_queue, msg :: rest, ctx =>
    match c msg (temp_start_index + temp_queue.length) ctx with
    | (MsgStepOutcome.Complete idxs ret, _) =>
      let unchanged := idxs.min = (temp_start_index : WithTop Nat) ∧
        idxs.card = temp_queue.length + 1
      if unchanged then (ret, incoming_queue)
      else (ret, filterIndexes (incoming_queue ++ temp_queue) idxs)
    | (_, ctx1) =>
      chanPhase c f incoming_queue temp_start_index (temp_queue ++ [msg]) rest ctx1

/-- The always-rebuild variant of `chanPhase` (no unchanged fast path). -/
def chanPhaseRebuild {K RET : Type} (c : StepFn K RET) (f : Nat → CtxMap K → RET)
    (incoming_queue : List (Frame K)) (temp_start_index : Nat) :
    List (Frame K) → List (Frame K) → CtxMap K → RET × List (Frame K)
  | temp_queue, [], ctx =>
    (f (incoming_queue.length + temp_queue.length) ctx,
      incoming_queue ++ temp_queue)
  | temp_queue, msg :: rest, ctx =>
    match c msg (temp_start_index + temp_queue.length) ctx with
    | (MsgStepOutcome.Complete idxs ret, _) =>
      (ret, filterIndexes (incoming_queue ++ temp_queue) idxs)
    | (_, ctx1) =>
      chanPhaseRebuild c f incoming_queue temp_start_index (temp_queue ++ [msg]) rest ctx1

/-- `Inner::remove_next_message_from_queue`: the blocking extraction.
`receiving` is the list of items the receive channel will yield before
closing. -/
def remove_next_message_from_queue {K RET : Type} [DecidableEq K]
    (c : StepFn K RET) (f : Nat → CtxMap K → RET)
    (incoming_queue receiving : List (Frame K)) : RET × List (Frame K) :=
  match scanQueuePhase c incoming_queue 0 ctxEmpty with
  | (some (idxs, ret), _) => (ret, filterIndexes incoming_queue idxs)
  | (none, ctx) =>
    chanPhase c f incoming_queue incoming_queue.length [] receiving ctx

/-- The always-rebuild variant of the blocking extraction. -/
def remove_next_rebuild {K RET : Type} [DecidableEq K]
    (c : StepFn K RET) (f : Nat → CtxMap K → RET)
    (incoming_queue receiving : List (Frame K)) : RET × List (Frame K) :=
  match scanQueuePhase c incoming_queue 0 ctxEmpty with
  | (some (idxs, ret), _) => (ret, filterIndexes incoming_queue idxs)
  | (none, ctx) =>
    chanPhaseRebuild c f incoming_queue incoming_queue.length [] receiving ctx

/-- The facade-level error type `NetworkError` (only the variants the
core produces). -/
inductive NetworkError where
  | FailedToSerialize
  | FailedToDeserialize
  | ChannelDisconnected
  | DHTError
deriving DecidableEq

/-- Deserializer wrapper used by the blocking extractors: the bincode
error is coerced into `NetworkError::FailedToDeserialize`
(`.context(FailedToDeserializeSnafu)`). -/
def deserNE {M : Type} (des : List Nat → Option M) (bytes : List Nat) :
    Except NetworkError M :=
  match des bytes with
  | some m => Except.ok m
  | none => Except.error NetworkError.FailedToDeserialize

/-- `Inner::get_broadcasts`. -/
def get_broadcasts {K M : Type} [DecidableEq K] (des : List Nat → Option M)
    (incoming_queue temp_queue : List (Frame K)) :
    List (Option M) × List (Frame K) :=
  remove_messages_from_queue (broadcastStep des) incoming_queue temp_queue

/-- `Inner::get_next_broadcast`. -/
def get_next_broadcast {K M : Type} [DecidableEq K] (des : List Nat → Option M)
    (incoming_queue receiving : List (Frame K)) :
    Except NetworkError M × List (Frame K) :=
  remove_next_message_from_queue (broadcastStep (deserNE des))
    (fun _ _ => Except.error NetworkError.ChannelDisconnected)
    incoming_queue receiving

/-- `Inner::get_direct_messages`. -/
def get_direct_messages {K M : Type} [DecidableEq K] (des : List Nat → Option M)
    (incoming_queue temp_queue : List (Frame K)) :
    List (Option M) × List (Frame K) :=
  remove_messages_from_queue (directStep des) incoming_queue temp_queue

/-- `Inner::get_next_direct_message`. -/
def get_next_direct_message {K M : Type} [DecidableEq K] (des : List Nat → Option M)
    (incoming_queue receiving : List (Frame K)) :
    Except NetworkError M × List (Frame K) :=
  remove_next_message_from_queue (directStep (deserNE des))
    (fun _ _ => Except.error NetworkError.ChannelDisconnected)
    incoming_queue receiving

/-- `collect::<Result<Vec<_>, _>>()`: stop at the first error. -/
def collectResults {M : Type} : List (Option M) → Option (List M)
  | [] => some []
  | none :: _ => none
  | some m :: rest => (collectResults rest).map (fun l => m :: l)

/-- The facade operation `broadcast_queue` (`all_broadcasts`): run the
non-blocking extraction and coerce any per-item deserialization error
into a batch-level `FailedToDeserialize`. -/
def broadcast_queue {K M : Type} [DecidableEq K] (des : List Nat → Option M)
    (incoming_queue temp_queue : List (Frame K)) :
    Except NetworkError (List M) × List (Frame K) :=
  let r := get_broadcasts des incoming_queue temp_queue
  (match collectResults r.1 with
   | some l => Except.ok l
   | none => Except.error NetworkError.FailedToDeserialize,
   r.2)

/-- `Inner::direct_message`: a self-addressed direct goes only to the
loopback sender of the receive channel; any other target is enqueued on
the outbound queue.  Returns the outbound queue and the receive-channel
contents after the call. -/
def direct_message {K : Type} [DecidableEq K] (own_key target : K)
    (message : List Nat)
    (sending : List (ToServer K × List Nat)) (receiving : List (Frame K)) :
    List (ToServer K × List Nat) × List (Frame K) :=
  if target = own_key then
    (sending,
      receiving ++
        [(FromServer.Direct own_key message.length message.length, message)])
  else
    (sending ++ [(ToServer.Direct target message.length, message)], receiving)

/-- A sample deserializer used to instantiate the abstract bincode
deserializer in concrete witnesses: decodes the first byte, failing on
an empty payload. -/
def desN : List Nat → Option Nat := fun l => l.head?

/-- All consumed indexes recorded in the context map are below `i`. -/
def CtxBounded {K : Type} (ctx : CtxMap K) (i : Nat) : Prop :=
  ∀ k c, ctx k = some c → ∀ j ∈ c.consumed_indexes, j < i

/-- A stepping closure only ever records or consumes indexes it has been
given: contexts stay bounded and `Complete` outcomes consume indexes at
most the current one. -/
def StepBounded {K RET : Type} (c : StepFn K RET) : Prop :=
  ∀ msg i ctx, CtxBounded ctx i →
    CtxBounded (c msg i ctx).2 (i + 1) ∧
    ∀ idxs ret, (c msg i ctx).1 = MsgStepOutcome.Complete idxs ret →
      ∀ j ∈ idxs, j < i + 1

/-- Concatenation of the raw payloads of a list of frames, in order. -/
def payloadConcat {K : Type} : List (Frame K) → List Nat
  | [] => []
  | f :: rest => f.2 ++ payloadConcat rest

/-- A frame the broadcast stepping closure always skips without touching
the context map: any header other than `Broadcast` / `BroadcastPayload`. -/
def broadcastInert {K : Type} : Frame K → Bool
  | (FromServer.Broadcast _ _ _, _) => false
  | (FromServer.BroadcastPayload _ _, _) => false
  | (_, _) => true

/-- `Interleave l r t`: `t` is an interleaving of `l` and `r` preserving
the relative order of each. -/
inductive Interleave {α : Type} : List α → List α → List α → Prop
  | nil : Interleave [] [] []
  | left (a : α) {l r t : List α} (h : Interleave l r t) :
      Interleave (a :: l) r (a :: t)
  | right (a : α) {l r t : List α} (h : Interleave l r t) :
      Interleave l (a :: r) (a :: t)

/-- `Frags s L a fr`: `fr` is a nonempty run of `BroadcastPayload`
continuation frames from `s` that completes a broadcast of total length
`L` whose accumulated bytes so far are `a`, every intermediate
accumulated length staying strictly below `L`. -/
inductive Frags {K : Type} (s : K) (L : Nat) : List Nat → List (Frame K) → Prop
  | last (a p : List Nat) (h : a.length + p.length = L) :
      Frags s L a [(FromServer.BroadcastPayload s p.length, p)]
  | cons (a p : List Nat) (rest : List (Frame K)) (h : a.length + p.length < L)
      (ht : Frags s L (a ++ p) rest) :
      Frags s L a ((FromServer.BroadcastPayload s p.length, p) :: rest)

/-- `BStream s L fr`: `fr` is a complete broadcast stream from source `s`
with declared `message_len = L`: one `Broadcast` header frame followed by
zero or more `BroadcastPayload` continuation frames whose payload lengths
sum to `L`, every intermediate accumulated length strictly below `L`. -/
inductive BStream {K : Type} (s : K) (L : Nat) : List (Frame K) → Prop
  | single (p : List Nat) (h : p.length = L) :
      BStream s L [(FromServer.Broadcast s L p.length, p)]
  | multi (p : List Nat) (rest : List (Frame K)) (h : p.length < L)
      (ht : Frags s L p rest) :
      BStream s L ((FromServer.Broadcast s L p.length, p) :: rest)

/-- The consumed-index component of an optional in-progress stream state. -/
def stIdx : Option (Finset Nat × List Nat) → Finset Nat
  | none => ∅
  | some (C, _) => C

/-- The accumulated-bytes component of an optional in-progress stream state. -/
def stAcc : Option (Finset Nat × List Nat) → List Nat
  | none => []
  | some (_, a) => a

/-- The context-map entry corresponding to an optional in-progress stream
state with declared total length `L`. -/
def stCtx (L : Nat) : Option (Finset Nat × List Nat) → Option MsgStepContext
  | none => none
  | some (C, a) => some ⟨C, L, a⟩

/-- Validity of the remaining frames of one stream, relative to its
state: not yet begun (`none`, a whole `BStream` remains) or in progress
(`some`, a completing run of fragments remains). -/
def StreamStateP {K : Type} (s : K) (L : Nat) :
    Option (Finset Nat × List Nat) → List (Frame K) → Prop
  | none, fr => BStream s L fr
  | some (_, a), fr => Frags s L a fr

/-- Merge two lists according to a boolean schedule: `true` takes the
next element of the first list, `false` of the second.  (Used to
quantify over all interleavings of two streams.) -/
def mergeBy {α : Type} : List Bool → List α → List α → List α
  | [], as, bs => as ++ bs
  | true :: sc, [], bs => bs
  | true :: sc, a :: as, bs => a :: mergeBy sc as bs
  | false :: sc, as, [] => as
  | false :: sc, as, b :: bs => b :: mergeBy sc as bs

/-- Whether, under schedule `sc`, the `nA`-th `true` occurs before the
`nB`-th `false`: that is, whether the first stream's final (completing)
frame is encountered before the second stream's. -/
def aFirst : List Bool → Nat → Nat → Bool
  | [], _, _ => true
  | true :: sc, nA, nB => if nA ≤ 1 then true else aFirst sc (nA - 1) nB
  | false :: sc, nA, nB => if nB ≤ 1 then false else aFirst sc nA (nB - 1)

/-- Observable state of the background connection driver spawned by
`CentralizedServerNetwork::create`: the `running` flag, whether the
driver loop (the spawned task) has exited, the `connected` flag, and the
number of `create_connection` invocations so far. -/
structure DriverState where
  running : Bool
  exited : Bool
  connected : Bool
  connects : Nat
deriving DecidableEq

/-- `NetworkingImplementation::shut_down`:
`self.inner.running.store(false, Ordering::Relaxed)`. -/
def shut_down (s : DriverState) : DriverState := { s with running := false }

/-- One observable step of the driver loop
`while inner.running.load(..) { let stream = create_connection().await; run_background(..); inner.connected.store(false, ..) }`:
if the loop has already exited nothing changes; otherwise while `running`
is observed true, one iteration invokes `create_connection` (counted by
`connects`), runs the worker until it errors, and resets `connected`;
once `running` is observed false the loop exits and the task (holding the
receiver end of the outbound queue) is dropped. -/
def driverStep (s : DriverState) : DriverState :=
  if s.exited then s
  else if s.running then { s with connects := s.connects + 1, connected := false }
  else { s with exited := true }

/-- Outcome of a facade call: normal completion, or a panic with the
given message. -/
inductive CallOutcome (A : Type) where
  | completes (a : A)
  | panics (msg : String)
deriving DecidableEq

/-- The send that `Inner::broadcast`, `Inner::direct_message` (non-self
target) and `Inner::request_client_count` perform:
`self.sending.send_async(..).await.expect("Background thread exited")`.
The only receivers of the `sending` channel are held by the driver task,
so the send fails - and the `expect` panics - exactly when the driver
loop has exited. -/
def outbound_send (s : DriverState) : CallOutcome Unit :=
  if s.exited then CallOutcome.panics "Background thread exited"
  else CallOutcome.completes ()

/-- Ordered observable events performed by `run_background` before its
multiplex loop. -/
inductive WorkerEvent (K : Type) where
  | sentToServer (m : ToServer K)
  | setConnected (b : Bool)
  | enteredLoop
deriving DecidableEq

/-- The entry sequence of `run_background`: send `Identify{key}`, store
`connected = true`, then re-send `RequestClientCount` when
`request_client_count_sender` is non-empty, then enter the multiplex
loop. -/
def run_background_prelude {K : Type} (key : K) (waitersNonempty : Bool) :
    List (WorkerEvent K) :=
  [WorkerEvent.sentToServer (ToServer.Identify key),
   WorkerEvent.setConnected true] ++
  (if waitersNonempty then [WorkerEvent.sentToServer ToServer.RequestClientCount]
   else []) ++
  [WorkerEvent.enteredLoop]

theorem ctxBounded_empty {K : Type} (i : Nat) :
    CtxBounded (ctxEmpty (K := K)) i := by
  intro k c hc
  simp [ctxEmpty] at hc

theorem ctxBounded_mono {K : Type} {ctx : CtxMap K} {i j : Nat}
    (h : CtxBounded ctx i) (hij : i ≤ j) : CtxBounded ctx j := by
  intro k c hc m hm
  exact lt_of_lt_of_le (h k c hc m hm) hij

theorem ctxBounded_insert {K : Type} [DecidableEq K] {ctx : CtxMap K} {n : Nat}
    {k : K} {c : MsgStepContext} (h : CtxBounded ctx n)
    (hc : ∀ j ∈ c.consumed_indexes, j < n) :
    CtxBounded (ctxInsert ctx k c) n := by
  intro k2 c2 hk2 j hj
  unfold ctxInsert at hk2
  by_cases hk : k2 = k
  · rw [if_pos hk] at hk2
    cases hk2
    exact hc j hj
  · rw [if_neg hk] at hk2
    exact h k2 c2 hk2 j hj

theorem ctxBounded_erase {K : Type} [DecidableEq K] {ctx : CtxMap K} {n : Nat}
    {k : K} (h : CtxBounded ctx n) : CtxBounded (ctxErase ctx k) n := by
  intro k2 c2 hk2 j hj
  unfold ctxErase at hk2
  by_cases hk : k2 = k
  · rw [if_pos hk] at hk2; cases hk2
  · rw [if_neg hk] at hk2
    exact h k2 c2 hk2 j hj

theorem broadcastStep_bounded {K RET : Type} [DecidableEq K]
    (d : List Nat → RET) : StepBounded (K := K) (broadcastStep d) := by
  rintro ⟨hdr, payload⟩ i ctx hb
  cases hdr with
  | Broadcast source message_len payload_len =>
    simp only [broadcastStep]
    split_ifs with h1 h2
    · refine ⟨ctxBounded_insert (ctxBounded_mono hb (Nat.le_succ i)) ?_, ?_⟩
      · intro j hj
        simp only [Finset.mem_singleton] at hj
        omega
      · intro idxs ret h
        exact nomatch h
    · exact ⟨ctxBounded_mono hb (Nat.le_succ i),
        fun idxs ret h => nomatch h⟩
    · refine ⟨ctxBounded_mono hb (Nat.le_succ i), ?_⟩
      intro idxs ret h j hj
      injection h with h1 h2
      subst h1
      simp only [Finset.mem_singleton] at hj
      omega
  | BroadcastPayload source payload_len =>
    cases hctx : ctx source with
    | none =>
      simp only [broadcastStep, hctx]
      exact ⟨ctxBounded_mono hb (Nat.le_succ i),
        fun idxs ret h => nomatch h⟩
    | some c0 =>
      simp only [broadcastStep, hctx]
      have hc0 : ∀ j ∈ c0.consumed_indexes, j < i := hb source c0 hctx
      have hins : ∀ j ∈ insert i c0.consumed_indexes, j < i + 1 := by
        intro j hj
        rcases Finset.mem_insert.mp hj with h | h
        · omega
        · have := hc0 j h; omega
      split_ifs with h1 h2 h3
      · refine ⟨ctxBounded_erase (ctxBounded_mono hb (Nat.le_succ i)), ?_⟩
        intro idxs ret h j hj
        injection h with ha hbv
        subst ha
        exact hins j hj
      · refine ⟨ctxBounded_insert (ctxBounded_mono hb (Nat.le_succ i)) hins, ?_⟩
        intro idxs ret h
        exact nomatch h
      · exact ⟨ctxBounded_erase (ctxBounded_mono hb (Nat.le_succ i)),
          fun idxs ret h => nomatch h⟩
      · refine ⟨ctxBounded_erase (ctxBounded_mono hb (Nat.le_succ i)), ?_⟩
        intro idxs ret h j hj
        injection h with ha hbv
        subst ha
        exact hins j hj
  | NodeConnected key =>
    exact ⟨ctxBounded_mono hb (Nat.le_succ i),
      fun idxs ret h => nomatch h⟩
  | NodeDisconnected key =>
    exact ⟨ctxBounded_mono hb (Nat.le_succ i),
      fun idxs ret h => nomatch h⟩
  | Direct source message_len payload_len =>
    exact ⟨ctxBounded_mono hb (Nat.le_succ i),
      fun idxs ret h => nomatch h⟩
  | DirectPayload source payload_len =>
    exact ⟨ctxBounded_mono hb (Nat.le_succ i),
      fun idxs ret h => nomatch h⟩
  | ClientCount count =>
    exact ⟨ctxBounded_mono hb (Nat.le_succ i),
      fun idxs ret h => nomatch h⟩
  | Config =>
    exact ⟨ctxBounded_mono hb (Nat.le_succ i),
      fun idxs ret h => nomatch h⟩
  | Start =>
    exact ⟨ctxBounded_mono hb (Nat.le_succ i),
      fun idxs ret h => nomatch h⟩

theorem directStep_bounded {K RET : Type} [DecidableEq K]
    (d : List Nat → RET) : StepBounded (K := K) (directStep d) := by
  rintro ⟨hdr, payload⟩ i ctx hb
  cases hdr with
  | Direct source message_len payload_len =>
    simp only [directStep]
    split_ifs with h1 h2
    · refine ⟨ctxBounded_insert (ctxBounded_mono hb (Nat.le_succ i)) ?_, ?_⟩
      · intro j hj
        simp only [Finset.mem_singleton] at hj
        omega
      · intro idxs ret h
        exact nomatch h
    · exact ⟨ctxBounded_mono hb (Nat.le_succ i),
        fun idxs ret h => nomatch h⟩
    · refine ⟨ctxBounded_mono hb (Nat.le_succ i), ?_⟩
      intro idxs ret h j hj
      injection h with h1 h2
      subst h1
      simp only [Finset.mem_singleton] at hj
      omega
  | DirectPayload source payload_len =>
    cases hctx : ctx source with
    | none =>
      simp only [directStep, hctx]
      exact ⟨ctxBounded_mono hb (Nat.le_succ i),
        fun idxs ret h => nomatch h⟩
    | some c0 =>
      simp only [directStep, hctx]
      have hc0 : ∀ j ∈ c0.consumed_indexes, j < i := hb source c0 hctx
      have hins : ∀ j ∈ insert i c0.consumed_indexes, j < i + 1 := by
        intro j hj
        rcases Finset.mem_insert.mp hj with h | h
        · omega
        · have := hc0 j h; omega
      split_ifs with h1 h2 h3
      · refine ⟨ctxBounded_erase (ctxBounded_mono hb (Nat.le_succ i)), ?_⟩
        intro idxs ret h j hj
        injection h with ha hbv
        subst ha
        exact hins j hj
      · refine ⟨ctxBounded_insert (ctxBounded_mono hb (Nat.le_succ i)) hins, ?_⟩
        intro idxs ret h
        exact nomatch h
      · exact ⟨ctxBounded_erase (ctxBounded_mono hb (Nat.le_succ i)),
          fun idxs ret h => nomatch h⟩
      · refine ⟨ctxBounded_erase (ctxBounded_mono hb (Nat.le_succ i)), ?_⟩
        intro idxs ret h j hj
        injection h with ha hbv
        subst ha
        exact hins j hj
  | Broadcast source message_len payload_len =>
    exact ⟨ctxBounded_mono hb (Nat.le_succ i),
      fun idxs ret h => nomatch h⟩
  | BroadcastPayload source payload_len =>
    exact ⟨ctxBounded_mono hb (Nat.le_succ i),
      fun idxs ret h => nomatch h⟩
  | NodeConnected key =>
    exact ⟨ctxBounded_mono hb (Nat.le_succ i),
      fun idxs ret h => nomatch h⟩
  | NodeDisconnected key =>
    exact ⟨ctxBounded_mono hb (Nat.le_succ i),
      fun idxs ret h => nomatch h⟩
  | ClientCount count =>
    exact ⟨ctxBounded_mono hb (Nat.le_succ i),
      fun idxs ret h => nomatch h⟩
  | Config =>
    exact ⟨ctxBounded_mono hb (Nat.le_succ i),
      fun idxs ret h => nomatch h⟩
  | Start =>
    exact ⟨ctxBounded_mono hb (Nat.le_succ i),
      fun idxs ret h => nomatch h⟩

theorem filterIdxFrom_low {α : Type} {dead : Finset Nat} :
    ∀ (l : List α) (i : Nat), (∀ j ∈ dead, j < i) → filterIdxFrom dead l i = l := by
  intro l
  induction l with
  | nil => intro i h; rfl
  | cons a rest ih =>
    intro i h
    unfold filterIdxFrom
    rw [if_neg (fun hi => absurd (h i hi) (lt_irrefl i)),
      ih (i + 1) (fun j hj => lt_trans (h j hj) (Nat.lt_succ_self i))]

theorem filterIdxFrom_empty {α : Type} :
    ∀ (l : List α) (i : Nat), filterIdxFrom (∅ : Finset Nat) l i = l := by
  intro l i
  exact filterIdxFrom_low l i (fun j hj => absurd hj (Finset.not_mem_empty j))

theorem filterIdxFrom_append {α : Type} (dead : Finset Nat) :
    ∀ (l1 l2 : List α) (i : Nat),
    filterIdxFrom dead (l1 ++ l2) i =
      filterIdxFrom dead l1 i ++ filterIdxFrom dead l2 (i + l1.length) := by
  intro l1
  induction l1 with
  | nil => intro l2 i; simp [filterIdxFrom]
  | cons a rest ih =>
    intro l2 i
    have harith : i + (a :: rest).length = i + 1 + rest.length := by
      simp only [List.length_cons]
      omega
    rw [harith]
    by_cases hi : i ∈ dead
    · simp only [List.cons_append, filterIdxFrom, if_pos hi, List.append_eq]
      exact ih l2 (i + 1)
    · simp only [List.cons_append, filterIdxFrom, if_neg hi, List.append_eq]
      rw [ih l2 (i + 1)]

theorem filterIdxFrom_nil_of {α : Type} {dead : Finset Nat} :
    ∀ (l : List α) (i : Nat), (∀ j, i ≤ j → j < i + l.length → j ∈ dead) →
    filterIdxFrom dead l i = [] := by
  intro l
  induction l with
  | nil => intro i h; rfl
  | cons a rest ih =>
    intro i h
    unfold filterIdxFrom
    rw [if_pos (h i (le_refl i) (by simp))]
    exact ih (i + 1) (fun j hj1 hj2 => h j (by omega) (by simp at hj2 ⊢; omega))

theorem filterIdxFrom_self_of {α : Type} {dead : Finset Nat} :
    ∀ (l : List α) (i : Nat), (∀ j, i ≤ j → j < i + l.length → j ∉ dead) →
    filterIdxFrom dead l i = l := by
  intro l
  induction l with
  | nil => intro i h; rfl
  | cons a rest ih =>
    intro i h
    unfold filterIdxFrom
    rw [if_neg (h i (le_refl i) (by simp))]
    rw [ih (i + 1) (fun j hj1 hj2 => h j (by omega) (by simp at hj2 ⊢; omega))]

theorem coverage_of_filterIdxFrom_nil {α : Type} {dead : Finset Nat} :
    ∀ (l : List α) (i : Nat), filterIdxFrom dead l i = [] →
    ∀ j, i ≤ j → j < i + l.length → j ∈ dead := by
  intro l
  induction l with
  | nil => intro i h j hj1 hj2; simp at hj2; omega
  | cons a rest ih =>
    intro i h j hj1 hj2
    unfold filterIdxFrom at h
    by_cases hi : i ∈ dead
    · rw [if_pos hi] at h
      rcases Nat.eq_or_lt_of_le hj1 with rfl | hlt
      · exact hi
      · exact ih (i + 1) h j hlt (by simp at hj2 ⊢; omega)
    · rw [if_neg hi] at h
      exact absurd h (by simp)

theorem dead_eq_Ico {dead : Finset Nat} {a n : Nat}
    (hmin : dead.min = (a : WithTop Nat)) (hcard : dead.card = n)
    (hsub : ∀ j ∈ dead, j < a + n) : dead = Finset.Ico a (a + n) := by
  have hge : ∀ j ∈ dead, a ≤ j := by
    intro j hj
    have h1 := Finset.min_le hj
    rw [hmin] at h1
    exact WithTop.coe_le_coe.mp h1
  apply Finset.eq_of_subset_of_card_le
  · intro j hj
    exact Finset.mem_Ico.mpr ⟨hge j hj, hsub j hj⟩
  · rw [Nat.card_Ico, hcard]
    omega

theorem filterIndexes_Ico {α : Type} (l1 l2 : List α) (m : Nat)
    (hm : l1.length + l2.length ≤ m) :
    filterIndexes (l1 ++ l2) (Finset.Ico l1.length m) = l1 := by
  unfold filterIndexes
  rw [filterIdxFrom_append]
  rw [filterIdxFrom_self_of l1 0 (by
    intro j hj1 hj2 hmem
    rw [Finset.mem_Ico] at hmem
    omega)]
  rw [filterIdxFrom_nil_of l2 (0 + l1.length) (by
    intro j hj1 hj2
    rw [Finset.mem_Ico]
    omega)]
  simp

theorem scanFrames_bounded {K RET : Type} {c : StepFn K RET}
    (hc : StepBounded c) :
    ∀ (l : List (Frame K)) (i : Nat) (ctx : CtxMap K), CtxBounded ctx i →
    (∀ j ∈ (scanFrames c l i ctx).2.1, j < i + l.length) ∧
    CtxBounded (scanFrames c l i ctx).2.2 (i + l.length) := by
  intro l
  induction l with
  | nil =>
    intro i ctx hb
    constructor
    · intro j hj
      simp [scanFrames] at hj
    · simpa [scanFrames] using hb
  | cons msg rest ih =>
    intro i ctx hb
    obtain ⟨hb1, hcomp⟩ := hc msg i ctx hb
    rcases hstep : c msg i ctx with ⟨o, ctx1⟩
    rw [hstep] at hb1 hcomp
    have hb1' : CtxBounded ctx1 (i + 1) := hb1
    obtain ⟨ihdead, ihctx⟩ := ih (i + 1) ctx1 hb1'
    cases o with
    | Complete idxs ret =>
      have hidxs : ∀ j ∈ idxs, j < i + 1 := hcomp idxs ret rfl
      constructor
      · intro j hj
        simp only [scanFrames, hstep, List.length_cons] at hj ⊢
        rcases Finset.mem_union.mp hj with h | h
        · have := hidxs j h; omega
        · have := ihdead j h; omega
      · simp only [scanFrames, hstep, List.length_cons]
        exact ctxBounded_mono ihctx (by omega)
    | Skip =>
      constructor
      · intro j hj
        simp only [scanFrames, hstep, List.length_cons] at hj ⊢
        have := ihdead j hj; omega
      · simp only [scanFrames, hstep, List.length_cons]
        exact ctxBounded_mono ihctx (by omega)
    | Begin =>
      constructor
      · intro j hj
        simp only [scanFrames, hstep, List.length_cons] at hj ⊢
        have := ihdead j hj; omega
      · simp only [scanFrames, hstep, List.length_cons]
        exact ctxBounded_mono ihctx (by omega)
    | Continue =>
      constructor
      · intro j hj
        simp only [scanFrames, hstep, List.length_cons] at hj ⊢
        have := ihdead j hj; omega
      · simp only [scanFrames, hstep, List.length_cons]
        exact ctxBounded_mono ihctx (by omega)

theorem remove_messages_eq_rebuild {K RET : Type} [DecidableEq K]
    {c : StepFn K RET} (hc : StepBounded c) (q t : List (Frame K)) :
    remove_messages_from_queue c q t = remove_messages_rebuild c q t := by
  unfold remove_messages_from_queue remove_messages_rebuild
  simp only []
  split
  case isTrue h =>
    rcases h with ⟨hdead, htemp⟩ | ⟨hmin, hcard⟩
    · subst htemp
      rw [hdead]
      unfold filterIndexes
      rw [filterIdxFrom_empty]
      simp
    · have hbound := (scanFrames_bounded hc (q ++ t) 0 ctxEmpty (ctxBounded_empty 0)).1
      have hIco : (scanFrames c (q ++ t) 0 ctxEmpty).2.1 =
          Finset.Ico q.length (q.length + t.length) := by
        apply dead_eq_Ico hmin hcard
        intro j hj
        have := hbound j hj
        simp only [List.length_append] at this
        omega
      rw [hIco, filterIndexes_Ico q t (q.length + t.length) (le_refl _)]
  case isFalse h => rfl

theorem scanQueuePhase_bounded_none {K RET : Type} {c : StepFn K RET}
    (hc : StepBounded c) :
    ∀ (l : List (Frame K)) (i : Nat) (ctx : CtxMap K), CtxBounded ctx i →
    ∀ ctx1, scanQueuePhase c l i ctx = (none, ctx1) →
    CtxBounded ctx1 (i + l.length) := by
  intro l
  induction l with
  | nil =>
    intro i ctx hb ctx1 h
    simp only [scanQueuePhase] at h
    cases h
    simpa using hb
  | cons msg rest ih =>
    intro i ctx hb ctx1 h
    obtain ⟨hb1, _⟩ := hc msg i ctx hb
    rcases hstep : c msg i ctx with ⟨o, ctxm⟩
    rw [hstep] at hb1
    simp only [scanQueuePhase, hstep] at h
    cases o with
    | Complete idxs ret => cases h
    | Skip =>
      have := ih (i + 1) ctxm hb1 ctx1 h
      simpa [Nat.add_assoc, Nat.add_comm 1 rest.length] using this
    | Begin =>
      have := ih (i + 1) ctxm hb1 ctx1 h
      simpa [Nat.add_assoc, Nat.add_comm 1 rest.length] using this
    | Continue =>
      have := ih (i + 1) ctxm hb1 ctx1 h
      simpa [Nat.add_assoc, Nat.add_comm 1 rest.length] using this

theorem chanPhase_eq_rebuild {K RET : Type} [DecidableEq K] {c : StepFn K RET}
    (hc : StepBounded c) (f : Nat → CtxMap K → RET) (q : List (Frame K)) :
    ∀ (chan temp : List (Frame K)) (ctx : CtxMap K),
    CtxBounded ctx (q.length + temp.length) →
    chanPhase c f q q.length temp chan ctx =
      chanPhaseRebuild c f q q.length temp chan ctx := by
  intro chan
  induction chan with
  | nil => intro temp ctx hb; rfl
  | cons msg rest ih =>
    intro temp ctx hb
    obtain ⟨hb1, hcomp⟩ := hc msg (q.length + temp.length) ctx hb
    rcases hstep : c msg (q.length + temp.length) ctx with ⟨o, ctx1⟩
    rw [hstep] at hb1 hcomp
    cases o with
    | Complete idxs ret =>
      simp only [chanPhase, chanPhaseRebuild, hstep]
      split
      case isTrue h =>
        obtain ⟨hmin, hcard⟩ := h
        have hidxs : ∀ j ∈ idxs, j < q.length + temp.length + 1 :=
          hcomp idxs ret rfl
        have hIco : idxs = Finset.Ico q.length (q.length + (temp.length + 1)) := by
          apply dead_eq_Ico hmin hcard
          intro j hj
          have := hidxs j hj
          omega
        rw [hIco, filterIndexes_Ico q temp (q.length + (temp.length + 1)) (by omega)]
      case isFalse h => rfl
    | Skip =>
      simp only [chanPhase, chanPhaseRebuild, hstep]
      exact ih (temp ++ [msg]) ctx1 (by simpa [Nat.add_assoc] using hb1)
    | Begin =>
      simp only [chanPhase, chanPhaseRebuild, hstep]
      exact ih (temp ++ [msg]) ctx1 (by simpa [Nat.add_assoc] using hb1)
    | Continue =>
      simp only [chanPhase, chanPhaseRebuild, hstep]
      exact ih (temp ++ [msg]) ctx1 (by simpa [Nat.add_assoc] using hb1)

theorem remove_next_eq_rebuild {K RET : Type} [DecidableEq K] {c : StepFn K RET}
    (hc : StepBounded c) (f : Nat → CtxMap K → RET)
    (q chan : List (Frame K)) :
    remove_next_message_from_queue c f q chan = remove_next_rebuild c f q chan := by
  unfold remove_next_message_from_queue remove_next_rebuild
  rcases hsq : scanQueuePhase c q 0 ctxEmpty with ⟨o, ctx⟩
  cases o with
  | some pr => rfl
  | none =>
    have hb : CtxBounded ctx q.length := by
      have := scanQueuePhase_bounded_none hc q 0 ctxEmpty (ctxBounded_empty 0) ctx hsq
      simpa using this
    exact chanPhase_eq_rebuild hc f q chan [] ctx (by simpa using hb)

theorem remove_messages_fst {K RET : Type} [DecidableEq K] (c : StepFn K RET)
    (q t : List (Frame K)) :
    (remove_messages_from_queue c q t).1 = (scanFrames c (q ++ t) 0 ctxEmpty).1 := by
  unfold remove_messages_from_queue
  simp only []
  split <;> rfl

theorem scanFrames_no_results_dead {K RET : Type} {c : StepFn K RET} :
    ∀ (l : List (Frame K)) (i : Nat) (ctx : CtxMap K),
    (scanFrames c l i ctx).1 = [] → (scanFrames c l i ctx).2.1 = ∅ := by
  intro l
  induction l with
  | nil => intro i ctx h; rfl
  | cons msg rest ih =>
    intro i ctx h
    rcases hstep : c msg i ctx with ⟨o, ctx1⟩
    cases o with
    | Complete idxs ret =>
      simp only [scanFrames, hstep] at h
      exact absurd h (List.cons_ne_nil _ _)
    | Skip =>
      simp only [scanFrames, hstep] at h ⊢
      exact ih (i + 1) ctx1 h
    | Begin =>
      simp only [scanFrames, hstep] at h ⊢
      exact ih (i + 1) ctx1 h
    | Continue =>
      simp only [scanFrames, hstep] at h ⊢
      exact ih (i + 1) ctx1 h

theorem scanQueuePhase_none_of_nil_results {K RET : Type} {c : StepFn K RET} :
    ∀ (l : List (Frame K)) (i : Nat) (ctx : CtxMap K),
    (scanFrames c l i ctx).1 = [] →
    scanQueuePhase c l i ctx = (none, (scanFrames c l i ctx).2.2) := by
  intro l
  induction l with
  | nil => intro i ctx h; rfl
  | cons msg rest ih =>
    intro i ctx h
    rcases hstep : c msg i ctx with ⟨o, ctx1⟩
    cases o with
    | Complete idxs ret =>
      simp only [scanFrames, hstep] at h
      exact absurd h (List.cons_ne_nil _ _)
    | Skip =>
      simp only [scanFrames, scanQueuePhase, hstep] at h ⊢
      exact ih (i + 1) ctx1 h
    | Begin =>
      simp only [scanFrames, scanQueuePhase, hstep] at h ⊢
      exact ih (i + 1) ctx1 h
    | Continue =>
      simp only [scanFrames, scanQueuePhase, hstep] at h ⊢
      exact ih (i + 1) ctx1 h

theorem scanFrames_append_results_nil {K RET : Type} {c : StepFn K RET} :
    ∀ (l1 l2 : List (Frame K)) (i : Nat) (ctx : CtxMap K),
    (scanFrames c (l1 ++ l2) i ctx).1 = [] →
    (scanFrames c l1 i ctx).1 = [] ∧
    (scanFrames c l2 (i + l1.length) (scanFrames c l1 i ctx).2.2).1 = [] := by
  intro l1
  induction l1 with
  | nil =>
    intro l2 i ctx h
    refine ⟨rfl, ?_⟩
    simpa [scanFrames] using h
  | cons msg rest ih =>
    intro l2 i ctx h
    rcases hstep : c msg i ctx with ⟨o, ctx1⟩
    cases o with
    | Complete idxs ret =>
      simp only [List.cons_append, scanFrames, hstep] at h
      exact absurd h (List.cons_ne_nil _ _)
    | Skip =>
      simp only [List.cons_append, scanFrames, hstep, List.length_cons] at h ⊢
      obtain ⟨h1, h2⟩ := ih l2 (i + 1) ctx1 h
      refine ⟨h1, ?_⟩
      have harith : i + 1 + rest.length = i + (rest.length + 1) := by omega
      rw [harith] at h2
      exact h2
    | Begin =>
      simp only [List.cons_append, scanFrames, hstep, List.length_cons] at h ⊢
      obtain ⟨h1, h2⟩ := ih l2 (i + 1) ctx1 h
      refine ⟨h1, ?_⟩
      have harith : i + 1 + rest.length = i + (rest.length + 1) := by omega
      rw [harith] at h2
      exact h2
    | Continue =>
      simp only [List.cons_append, scanFrames, hstep, List.length_cons] at h ⊢
      obtain ⟨h1, h2⟩ := ih l2 (i + 1) ctx1 h
      refine ⟨h1, ?_⟩
      have harith : i + 1 + rest.length = i + (rest.length + 1) := by omega
      rw [harith] at h2
      exact h2

theorem chanPhase_all_fail {K RET : Type} [DecidableEq K] {c : StepFn K RET}
    (f : Nat → CtxMap K → RET) (q : List (Frame K)) :
    ∀ (chan temp : List (Frame K)) (ctx : CtxMap K),
    (scanFrames c chan (q.length + temp.length) ctx).1 = [] →
    ∃ n ctx1, chanPhase c f q q.length temp chan ctx = (f n ctx1, q ++ temp ++ chan) := by
  intro chan
  induction chan with
  | nil =>
    intro temp ctx h
    refine ⟨q.length + temp.length, ctx, ?_⟩
    simp [chanPhase]
  | cons msg rest ih =>
    intro temp ctx h
    rcases hstep : c msg (q.length + temp.length) ctx with ⟨o, ctx1⟩
    cases o with
    | Complete idxs ret =>
      simp only [scanFrames, hstep] at h
      exact absurd h (List.cons_ne_nil _ _)
    | Skip =>
      simp only [scanFrames, hstep] at h
      have h2 : (scanFrames c rest (q.length + (temp ++ [msg]).length) ctx1).1 = [] := by
        have harith : q.length + (temp ++ [msg]).length = q.length + temp.length + 1 := by
          simp only [List.length_append, List.length_singleton]
          omega
        rw [harith]
        exact h
      obtain ⟨n, ctx2, heq⟩ := ih (temp ++ [msg]) ctx1 h2
      refine ⟨n, ctx2, ?_⟩
      simp only [chanPhase, hstep]
      rw [heq]
      simp
    | Begin =>
      simp only [scanFrames, hstep] at h
      have h2 : (scanFrames c rest (q.length + (temp ++ [msg]).length) ctx1).1 = [] := by
        have harith : q.length + (temp ++ [msg]).length = q.length + temp.length + 1 := by
          simp only [List.length_append, List.length_singleton]
          omega
        rw [harith]
        exact h
      obtain ⟨n, ctx2, heq⟩ := ih (temp ++ [msg]) ctx1 h2
      refine ⟨n, ctx2, ?_⟩
      simp only [chanPhase, hstep]
      rw [heq]
      simp
    | Continue =>
      simp only [scanFrames, hstep] at h
      have h2 : (scanFrames c rest (q.length + (temp ++ [msg]).length) ctx1).1 = [] := by
        have harith : q.length + (temp ++ [msg]).length = q.length + temp.length + 1 := by
          simp only [List.length_append, List.length_singleton]
          omega
        rw [harith]
        exact h
      obtain ⟨n, ctx2, heq⟩ := ih (temp ++ [msg]) ctx1 h2
      refine ⟨n, ctx2, ?_⟩
      simp only [chanPhase, hstep]
      rw [heq]
      simp

theorem collectResults_none {M : Type} :
    ∀ (l : List (Option M)), none ∈ l → collectResults l = none := by
  intro l
  induction l with
  | nil => intro h; cases h
  | cons a rest ih =>
    intro h
    cases a with
    | none => rfl
    | some m =>
      rcases List.mem_cons.mp h with h1 | h2
      · simp at h1
      · unfold collectResults
        rw [ih h2]
        rfl

theorem driver_stays_shut :
    ∀ (n : Nat) (s : DriverState), s.running = false →
    (driverStep^[n] s).connects = s.connects ∧
    (driverStep^[n] s).running = false := by
  intro n
  induction n with
  | zero => intro s h; exact ⟨rfl, h⟩
  | succ n ih =>
    intro s h
    rw [Function.iterate_succ_apply]
    have hstep1 : (driverStep s).connects = s.connects := by
      unfold driverStep
      by_cases he : s.exited = true
      · simp [he]
      · simp only [Bool.not_eq_true] at he
        simp [he, h]
    have hstep2 : (driverStep s).running = false := by
      unfold driverStep
      by_cases he : s.exited = true
      · simp [he, h]
      · simp only [Bool.not_eq_true] at he
        simp [he, h]
    obtain ⟨h1, h2⟩ := ih (driverStep s) hstep2
    exact ⟨h1.trans hstep1, h2⟩

theorem broadcastStep_inert {K RET : Type} [DecidableEq K] (d : List Nat → RET)
    (f : Frame K) (h : broadcastInert f = true) (i : Nat) (ctx : CtxMap K) :
    broadcastStep d f i ctx = (MsgStepOutcome.Skip, ctx) := by
  rcases f with ⟨hdr, payload⟩
  cases hdr <;> first | rfl | (simp [broadcastInert] at h)

theorem broadcastStep_begin {K RET : Type} [DecidableEq K] (d : List Nat → RET)
    (src : K) (L pl : Nat) (payload : List Nat) (i : Nat) (ctx : CtxMap K)
    (hlen : payload.length < L) :
    broadcastStep d (FromServer.Broadcast src L pl, payload) i ctx =
      (MsgStepOutcome.Begin, ctxInsert ctx src ⟨{i}, L, payload⟩) := by
  simp only [broadcastStep]
  rw [if_pos hlen]

theorem broadcastStep_complete_hdr {K RET : Type} [DecidableEq K]
    (d : List Nat → RET) (src : K) (L pl : Nat) (payload : List Nat) (i : Nat)
    (ctx : CtxMap K) (hlen : payload.length = L) :
    broadcastStep d (FromServer.Broadcast src L pl, payload) i ctx =
      (MsgStepOutcome.Complete {i} (d payload), ctx) := by
  simp only [broadcastStep]
  rw [if_neg (by omega), if_neg (by omega)]

theorem broadcastStep_frag_continue {K RET : Type} [DecidableEq K]
    (d : List Nat → RET) {src : K} {C : Finset Nat} {L : Nat} {a : List Nat}
    {ctx : CtxMap K} (hctx : ctx src = some ⟨C, L, a⟩) (pl : Nat)
    (payload : List Nat) (hlen : a.length + payload.length < L) (i : Nat) :
    broadcastStep d (FromServer.BroadcastPayload src pl, payload) i ctx =
      (MsgStepOutcome.Continue,
        ctxInsert ctx src ⟨insert i C, L, a ++ payload⟩) := by
  simp only [broadcastStep, hctx]
  rw [if_neg (by rintro ⟨h1, h2⟩; rw [h1] at hlen; simp at hlen; omega),
    if_pos (by simp only [List.length_append]; omega)]

theorem broadcastStep_frag_complete {K RET : Type} [DecidableEq K]
    (d : List Nat → RET) {src : K} {C : Finset Nat} {L : Nat} {a : List Nat}
    {ctx : CtxMap K} (hctx : ctx src = some ⟨C, L, a⟩) (pl : Nat)
    (payload : List Nat) (hlen : a.length + payload.length = L) (i : Nat) :
    broadcastStep d (FromServer.BroadcastPayload src pl, payload) i ctx =
      (MsgStepOutcome.Complete (insert i C) (d (a ++ payload)),
        ctxErase ctx src) := by
  simp only [broadcastStep, hctx]
  by_cases ha : a = []
  · subst ha
    simp only [List.length_nil, Nat.zero_add] at hlen
    simp only [List.nil_append]
    split_ifs with h1 h2 h3
    · rfl
    · exact absurd (by simp [hlen]) h1
    · exact absurd (by simp [hlen]) h1
    · exact absurd (by simp [hlen]) h1
  · rw [if_neg (fun hc => ha hc.1),
      if_neg (by simp only [List.length_append]; omega),
      if_neg (by simp only [List.length_append]; omega)]

theorem scanFrames_inert {K RET : Type} [DecidableEq K] (d : List Nat → RET) :
    ∀ (frames : List (Frame K)) (i : Nat) (ctx : CtxMap K),
    (∀ f ∈ frames, broadcastInert f = true) →
    scanFrames (broadcastStep d) frames i ctx = ([], ∅, ctx) := by
  intro frames
  induction frames with
  | nil => intro i ctx h; rfl
  | cons f rest ih =>
    intro i ctx h
    have hstep := broadcastStep_inert d f (h f (List.mem_cons_self f rest)) i ctx
    simp only [scanFrames, hstep]
    exact ih (i + 1) ctx (fun g hg => h g (List.mem_cons_of_mem f hg))

theorem interleave_nil_left {α : Type} {r t : List α}
    (h : Interleave [] r t) : t = r := by
  generalize hl : ([] : List α) = l at h
  induction h with
  | nil => rfl
  | left a h ih => exact List.noConfusion hl
  | right a h ih => rw [ih hl]

theorem interleave_right_nil {α : Type} : ∀ (l : List α), Interleave l [] l
  | [] => Interleave.nil
  | a :: rest => Interleave.left a (interleave_right_nil rest)

theorem scan_single_stream {K RET : Type} [DecidableEq K] (d : List Nat → RET)
    (s : K) (L : Nat) :
    ∀ (frames stream inert : List (Frame K))
      (st : Option (Finset Nat × List Nat)) (i : Nat) (ctx : CtxMap K),
    Interleave stream inert frames →
    StreamStateP s L st stream →
    (∀ f ∈ inert, broadcastInert f = true) →
    ctx s = stCtx L st →
    (∀ j ∈ stIdx st, j < i) →
    ∃ dead ctx1,
      scanFrames (broadcastStep d) frames i ctx =
        ([d (stAcc st ++ payloadConcat stream)], dead, ctx1) ∧
      filterIdxFrom dead frames i = inert ∧
      stIdx st ⊆ dead ∧
      (∀ j ∈ dead, j ∈ stIdx st ∨ (i ≤ j ∧ j < i + frames.length)) := by
  intro frames stream inert st i ctx hI
  induction hI generalizing st i ctx with
  | nil =>
    intro hst hinert hctx hbound
    exfalso
    rcases st with _ | ⟨C, a⟩
    · cases hst
    · cases hst
  | left f hI2 ih =>
    intro hst hinert hctx hbound
    rcases st with _ | ⟨C, a⟩
    · -- stream not begun: f is the Broadcast header frame
      cases hst with
      | single p hp =>
        have hstep := broadcastStep_complete_hdr d s L p.length p i ctx hp
        have ht := interleave_nil_left hI2
        subst ht
        have hrest := scanFrames_inert d _ (i + 1) ctx hinert
        refine ⟨{i}, ctx, ?_, ?_, ?_, ?_⟩
        · simp only [scanFrames, hstep, hrest]
          simp [stAcc, payloadConcat]
        · unfold filterIdxFrom
          rw [if_pos (Finset.mem_singleton_self i)]
          exact filterIdxFrom_low _ (i + 1)
            (fun j hj => by rw [Finset.mem_singleton] at hj; omega)
        · simp [stIdx]
        · intro j hj
          rw [Finset.mem_singleton] at hj
          subst hj
          right
          simp only [List.length_cons]
          omega
      | multi p rest hp hfr =>
        have hstep := broadcastStep_begin d s L p.length p i ctx hp
        obtain ⟨dead, ctx1, hscan, hfil, hsub, hrange⟩ :=
          ih (some ({i}, p)) (i + 1) (ctxInsert ctx s ⟨{i}, L, p⟩) hfr hinert
            (by simp [ctxInsert, stCtx])
            (by intro j hj; simp only [stIdx, Finset.mem_singleton] at hj; omega)
        have hi_mem : i ∈ dead := hsub (by simp [stIdx])
        refine ⟨dead, ctx1, ?_, ?_, ?_, ?_⟩
        · simp only [scanFrames, hstep, hscan]
          simp [stAcc, payloadConcat]
        · unfold filterIdxFrom
          rw [if_pos hi_mem]
          exact hfil
        · simp [stIdx]
        · intro j hj
          rcases hrange j hj with h | h
          · simp only [stIdx, Finset.mem_singleton] at h
            subst h
            right
            simp only [List.length_cons]
            omega
          · right
            simp only [List.length_cons]
            omega
    · -- stream in progress: f is a BroadcastPayload fragment
      have hctx2 : ctx s = some ⟨C, L, a⟩ := hctx
      cases hst with
      | last a2 p hp =>
        have hstep := broadcastStep_frag_complete d hctx2 p.length p hp i
        have ht := interleave_nil_left hI2
        subst ht
        have hrest := scanFrames_inert d _ (i + 1) (ctxErase ctx s) hinert
        refine ⟨insert i C, ctxErase ctx s, ?_, ?_, ?_, ?_⟩
        · simp only [scanFrames, hstep, hrest]
          simp [stAcc, payloadConcat]
        · unfold filterIdxFrom
          rw [if_pos (Finset.mem_insert_self i C)]
          exact filterIdxFrom_low _ (i + 1)
            (fun j hj => by
              rcases Finset.mem_insert.mp hj with h | h
              · omega
              · have := hbound j (by simpa [stIdx] using h); omega)
        · exact fun j hj => Finset.mem_insert_of_mem (by simpa [stIdx] using hj)
        · intro j hj
          rcases Finset.mem_insert.mp hj with h | h
          · subst h
            right
            simp only [List.length_cons]
            omega
          · left
            simpa [stIdx] using h
      | cons a2 p rest hp hfr =>
        have hstep := broadcastStep_frag_continue d hctx2 p.length p hp i
        obtain ⟨dead, ctx1, hscan, hfil, hsub, hrange⟩ :=
          ih (some (insert i C, a ++ p)) (i + 1)
            (ctxInsert ctx s ⟨insert i C, L, a ++ p⟩) hfr hinert
            (by simp [ctxInsert, stCtx])
            (by
              intro j hj
              simp only [stIdx] at hj
              rcases Finset.mem_insert.mp hj with h | h
              · omega
              · have := hbound j (by simpa [stIdx] using h); omega)
        have hi_mem : i ∈ dead := hsub (by simp [stIdx])
        refine ⟨dead, ctx1, ?_, ?_, ?_, ?_⟩
        · simp only [scanFrames, hstep, hscan]
          simp [stAcc, payloadConcat]
        · unfold filterIdxFrom
          rw [if_pos hi_mem]
          exact hfil
        · exact fun j hj =>
            hsub (by simp only [stIdx]; exact Finset.mem_insert_of_mem (by simpa [stIdx] using hj))
        · intro j hj
          rcases hrange j hj with h | h
          · simp only [stIdx] at h
            rcases Finset.mem_insert.mp h with h2 | h2
            · subst h2
              right
              simp only [List.length_cons]
              omega
            · left
              simpa [stIdx] using h2
          · right
            simp only [List.length_cons]
            omega
  | right f hI2 ih =>
    intro hst hinert hctx hbound
    have hstep := broadcastStep_inert d f
      (hinert f (List.mem_cons_self f _)) i ctx
    obtain ⟨dead, ctx1, hscan, hfil, hsub, hrange⟩ :=
      ih st (i + 1) ctx hst
        (fun g hg => hinert g (List.mem_cons_of_mem f hg)) hctx
        (fun j hj => by have := hbound j hj; omega)
    have hi_nmem : i ∉ dead := by
      intro hmem
      rcases hrange i hmem with h | h
      · have := hbound i h; omega
      · omega
    refine ⟨dead, ctx1, ?_, ?_, hsub, ?_⟩
    · simp only [scanFrames, hstep, hscan]
    · unfold filterIdxFrom
      rw [if_neg hi_nmem, hfil]
    · intro j hj
      rcases hrange j hj with h | h
      · exact Or.inl h
      · right
        simp only [List.length_cons]
        omega

/-- C1: for every queue-plus-channel view that interleaves one complete
broadcast stream (a `Broadcast` header declaring `message_len = L` plus
continuation fragments whose payloads sum to `L`, intermediate
accumulated lengths strictly below `L`) with frames the broadcast
extraction does not touch, a single non-blocking `get_broadcasts` call
returns exactly one result, the deserialization of the concatenated
payloads, consumes exactly the stream's frames, and leaves every other
frame in the buffer in its original relative order. -/
theorem claim_C1 {K M : Type} [DecidableEq K] (des : List Nat → Option M)
    (s : K) (L : Nat) (stream inert queue temp : List (Frame K))
    (hI : Interleave stream inert (queue ++ temp))
    (hs : BStream s L stream)
    (hin : ∀ f ∈ inert, broadcastInert f = true) :
    get_broadcasts des queue temp = ([des (payloadConcat stream)], inert) := by
  obtain ⟨dead, ctx1, hscan, hfil, hsub, hrange⟩ :=
    scan_single_stream des s L (queue ++ temp) stream inert none 0 ctxEmpty hI
      hs hin rfl (by simp [stIdx])
  unfold get_broadcasts
  rw [remove_messages_eq_rebuild (broadcastStep_bounded des) queue temp]
  unfold remove_messages_rebuild
  simp only []
  rw [hscan]
  unfold filterIndexes
  rw [hfil]
  simp [stAcc]

theorem claim_C1_witness :
    get_broadcasts (K := Nat) desN
      [(FromServer.Start, []), (FromServer.Broadcast 1 2 2, [5, 6])] [] =
      ([desN [5, 6]], [(FromServer.Start, [])]) := by
  have h := claim_C1 desN 1 2
    [(FromServer.Broadcast 1 2 2, [5, 6])] [(FromServer.Start, [])]
    [(FromServer.Start, []), (FromServer.Broadcast 1 2 2, [5, 6])] []
    (by
      rw [List.append_nil]
      exact Interleave.right _ (Interleave.left _ Interleave.nil))
    (BStream.single [5, 6] rfl)
    (by decide)
  simpa [payloadConcat] using h

theorem Frags_ne_nil {K : Type} {s : K} {L : Nat} {a : List Nat}
    {fr : List (Frame K)} (h : Frags s L a fr) : fr ≠ [] := by
  cases h <;> exact List.cons_ne_nil _ _

theorem StreamStateP_ne_nil {K : Type} {s : K} {L : Nat}
    {st : Option (Finset Nat × List Nat)} {fr : List (Frame K)}
    (h : StreamStateP s L st fr) : fr ≠ [] := by
  rcases st with _ | ⟨C, a⟩
  · cases h <;> exact List.cons_ne_nil _ _
  · cases h <;> exact List.cons_ne_nil _ _

theorem merge_nil_left {α : Type} :
    ∀ (sc : List Bool) (bs : List α), sc.count true = 0 →
    mergeBy sc [] bs = bs := by
  intro sc
  induction sc with
  | nil => intro bs h; rfl
  | cons b sc ih =>
    intro bs h
    cases b with
    | true =>
      exfalso
      rw [List.count_cons_self] at h
      omega
    | false =>
      cases bs with
      | nil => rfl
      | cons b2 bs2 =>
        show b2 :: mergeBy sc [] bs2 = b2 :: bs2
        rw [ih bs2 (by rw [List.count_cons_of_ne (by decide)] at h; exact h)]

theorem merge_nil_right {α : Type} :
    ∀ (sc : List Bool) (as : List α), sc.count true = as.length →
    sc.length = as.length → mergeBy sc as [] = as := by
  intro sc
  induction sc with
  | nil =>
    intro as h1 h2
    have has : as = [] := List.length_eq_zero.mp h2.symm
    subst has
    rfl
  | cons b sc ih =>
    intro as h1 h2
    cases b with
    | true =>
      cases as with
      | nil =>
        exfalso
        rw [List.count_cons_self] at h1
        simp at h1
      | cons a2 as2 =>
        show a2 :: mergeBy sc as2 [] = a2 :: as2
        rw [ih as2
          (by rw [List.count_cons_self] at h1
              simp only [List.length_cons] at h1
              omega)
          (by simp only [List.length_cons] at h2; omega)]
    | false => rfl

theorem scan_complete_then_single {K RET : Type} [DecidableEq K]
    (d : List Nat → RET) (sB : K) (LB : Nat) (fA : Frame K)
    (remB : List (Frame K)) (stB : Option (Finset Nat × List Nat)) (i : Nat)
    (ctx ctx2 : CtxMap K) (idxsA : Finset Nat) (retA : RET)
    (hstep : broadcastStep d fA i ctx = (MsgStepOutcome.Complete idxsA retA, ctx2))
    (hiA : i ∈ idxsA)
    (hstB : StreamStateP sB LB stB remB)
    (hctxB : ctx2 sB = stCtx LB stB)
    (hbB : ∀ j ∈ stIdx stB, j < i) :
    ∃ dead ctx1,
      scanFrames (broadcastStep d) (fA :: remB) i ctx =
        ([retA, d (stAcc stB ++ payloadConcat remB)], dead, ctx1) ∧
      (∀ j, i ≤ j → j < i + (fA :: remB).length → j ∈ dead) ∧
      idxsA ⊆ dead ∧ stIdx stB ⊆ dead := by
  obtain ⟨deadB, ctx1, hscanB, hfilB, hsubB, hrangeB⟩ :=
    scan_single_stream d sB LB remB remB [] stB (i + 1) ctx2
      (interleave_right_nil remB) hstB (fun f hf => absurd hf (List.not_mem_nil f))
      hctxB (fun j hj => by have := hbB j hj; omega)
  have hcovB := coverage_of_filterIdxFrom_nil remB (i + 1) hfilB
  refine ⟨idxsA ∪ deadB, ctx1, ?_, ?_, Finset.subset_union_left, ?_⟩
  · simp only [scanFrames, hstep, hscanB]
  · intro j hj1 hj2
    rcases Nat.eq_or_lt_of_le hj1 with rfl | hlt
    · exact Finset.mem_union_left _ hiA
    · refine Finset.mem_union_right _ (hcovB j hlt ?_)
      simp only [List.length_cons] at hj2
      omega
  · exact fun j hj => Finset.mem_union_right _ (hsubB hj)

theorem scan_two_streams {K RET : Type} [DecidableEq K] (d : List Nat → RET)
    (sA sB : K) (LA LB : Nat) (hne : sA ≠ sB) :
    ∀ (sched : List Bool) (remA remB : List (Frame K))
      (stA stB : Option (Finset Nat × List Nat)) (i : Nat) (ctx : CtxMap K),
    StreamStateP sA LA stA remA →
    StreamStateP sB LB stB remB →
    sched.count true = remA.length →
    sched.length = remA.length + remB.length →
    ctx sA = stCtx LA stA →
    ctx sB = stCtx LB stB →
    (∀ j ∈ stIdx stA, j < i) →
    (∀ j ∈ stIdx stB, j < i) →
    ∃ dead ctx1,
      scanFrames (broadcastStep d) (mergeBy sched remA remB) i ctx =
        ((if aFirst sched remA.length remB.length = true
          then [d (stAcc stA ++ payloadConcat remA),
                d (stAcc stB ++ payloadConcat remB)]
          else [d (stAcc stB ++ payloadConcat remB),
                d (stAcc stA ++ payloadConcat remA)]),
         dead, ctx1) ∧
      (∀ j, i ≤ j → j < i + (mergeBy sched remA remB).length → j ∈ dead) ∧
      stIdx stA ⊆ dead ∧ stIdx stB ⊆ dead := by
  intro sched
  induction sched with
  | nil =>
    intro remA remB stA stB i ctx hstA hstB hcount hlen hctxA hctxB hbA hbB
    exfalso
    rw [List.count_nil] at hcount
    exact StreamStateP_ne_nil hstA (List.length_eq_zero.mp hcount.symm)
  | cons b sc ih =>
    intro remA remB stA stB i ctx hstA hstB hcount hlen hctxA hctxB hbA hbB
    cases b with
    | true =>
      rcases remA with _ | ⟨fA, restA⟩
      · exfalso
        rw [List.count_cons_self] at hcount
        simp at hcount
      · rcases stA with _ | ⟨CA, a⟩
        · cases hstA with
          | single p hp =>
            have hc0 : sc.count true = 0 := by
              rw [List.count_cons_self] at hcount
              simp only [List.length_cons, List.length_nil] at hcount
              omega
            have hmerge : mergeBy sc ([] : List (Frame K)) remB = remB :=
              merge_nil_left sc remB hc0
            have hstep := broadcastStep_complete_hdr d sA LA p.length p i ctx hp
            obtain ⟨dead, ctx1, hscan, hcov, hsubA, hsubB⟩ :=
              scan_complete_then_single d sB LB _ remB stB i ctx ctx {i} (d p)
                hstep (Finset.mem_singleton_self i) hstB hctxB hbB
            have hframes : mergeBy (true :: sc)
                [((FromServer.Broadcast sA LA p.length : FromServer K), p)] remB =
                ((FromServer.Broadcast sA LA p.length : FromServer K), p) :: remB := by
              simp only [mergeBy]
              rw [hmerge]
            refine ⟨dead, ctx1, ?_, ?_, ?_, hsubB⟩
            · rw [hframes, hscan]
              simp [aFirst, stAcc, payloadConcat]
            · simp only [hframes]
              exact hcov
            · simp [stIdx]
          | multi p restA hp hfr =>
            have hstep := broadcastStep_begin d sA LA p.length p i ctx hp
            have hcA2 : ctxInsert ctx sA ⟨{i}, LA, p⟩ sA =
                stCtx LA (some ({i}, p)) := by
              simp [ctxInsert, stCtx]
            have hcB2 : ctxInsert ctx sA ⟨{i}, LA, p⟩ sB = stCtx LB stB := by
              unfold ctxInsert
              rw [if_neg (fun h => hne h.symm)]
              exact hctxB
            obtain ⟨dead, ctx1, hscan, hcov, hsubA, hsubB⟩ :=
              ih restA remB (some ({i}, p)) stB (i + 1)
                (ctxInsert ctx sA ⟨{i}, LA, p⟩) hfr hstB
                (by rw [List.count_cons_self] at hcount
                    simp only [List.length_cons] at hcount
                    omega)
                (by simp only [List.length_cons] at hlen
                    omega)
                hcA2 hcB2
                (by intro j hj
                    simp only [stIdx, Finset.mem_singleton] at hj
                    omega)
                (fun j hj => by have := hbB j hj; omega)
            have hlenA : 1 ≤ restA.length := List.length_pos.mpr (Frags_ne_nil hfr)
            have haF : aFirst (true :: sc)
                ((FromServer.Broadcast sA LA p.length, p) :: restA).length
                remB.length = aFirst sc restA.length remB.length := by
              simp only [aFirst, List.length_cons]
              rw [if_neg (by omega)]
              have hsub1 : restA.length + 1 - 1 = restA.length := by omega
              rw [hsub1]
            refine ⟨dead, ctx1, ?_, ?_, ?_, hsubB⟩
            · simp only [mergeBy, scanFrames, hstep]
              rw [hscan, haF]
              simp [stAcc, payloadConcat]
            · simp only [mergeBy, List.length_cons]
              intro j hj1 hj2
              rcases Nat.eq_or_lt_of_le hj1 with rfl | hlt
              · exact hsubA (by simp [stIdx])
              · exact hcov j hlt (by omega)
            · simp [stIdx]
        · have hctxA2 : ctx sA = some ⟨CA, LA, a⟩ := hctxA
          cases hstA with
          | last a2 p hp =>
            have hc0 : sc.count true = 0 := by
              rw [List.count_cons_self] at hcount
              simp only [List.length_cons, List.length_nil] at hcount
              omega
            have hmerge : mergeBy sc ([] : List (Frame K)) remB = remB :=
              merge_nil_left sc remB hc0
            have hstep := broadcastStep_frag_complete d hctxA2 p.length p hp i
            have hctxB2 : ctxErase ctx sA sB = stCtx LB stB := by
              unfold ctxErase
              rw [if_neg (fun h => hne h.symm)]
              exact hctxB
            obtain ⟨dead, ctx1, hscan, hcov, hsubA, hsubB⟩ :=
              scan_complete_then_single d sB LB _ remB stB i ctx
                (ctxErase ctx sA) (insert i CA) (d (a ++ p)) hstep
                (Finset.mem_insert_self i CA) hstB hctxB2 hbB
            have hframes : mergeBy (true :: sc)
                [((FromServer.BroadcastPayload sA p.length : FromServer K), p)] remB =
                ((FromServer.BroadcastPayload sA p.length : FromServer K), p) :: remB := by
              simp only [mergeBy]
              rw [hmerge]
            refine ⟨dead, ctx1, ?_, ?_, ?_, hsubB⟩
            · rw [hframes, hscan]
              simp [aFirst, stAcc, payloadConcat]
            · simp only [hframes]
              exact hcov
            · intro j hj
              exact hsubA (Finset.mem_insert_of_mem (by simpa [stIdx] using hj))
          | cons a2 p restA hp hfr =>
            have hstep := broadcastStep_frag_continue d hctxA2 p.length p hp i
            have hcA2 : ctxInsert ctx sA ⟨insert i CA, LA, a ++ p⟩ sA =
                stCtx LA (some (insert i CA, a ++ p)) := by
              simp [ctxInsert, stCtx]
            have hcB2 : ctxInsert ctx sA ⟨insert i CA, LA, a ++ p⟩ sB =
                stCtx LB stB := by
              unfold ctxInsert
              rw [if_neg (fun h => hne h.symm)]
              exact hctxB
            obtain ⟨dead, ctx1, hscan, hcov, hsubA, hsubB⟩ :=
              ih restA remB (some (insert i CA, a ++ p)) stB (i + 1)
                (ctxInsert ctx sA ⟨insert i CA, LA, a ++ p⟩) hfr hstB
                (by rw [List.count_cons_self] at hcount
                    simp only [List.length_cons] at hcount
                    omega)
                (by simp only [List.length_cons] at hlen
                    omega)
                hcA2 hcB2
                (by intro j hj
                    simp only [stIdx] at hj
                    rcases Finset.mem_insert.mp hj with h | h
                    · omega
                    · have := hbA j (by simpa [stIdx] using h); omega)
                (fun j hj => by have := hbB j hj; omega)
            have hlenA : 1 ≤ restA.length := List.length_pos.mpr (Frags_ne_nil hfr)
            have haF : aFirst (true :: sc)
                ((FromServer.BroadcastPayload sA p.length, p) :: restA).length
                remB.length = aFirst sc restA.length remB.length := by
              simp only [aFirst, List.length_cons]
              rw [if_neg (by omega)]
              have hsub1 : restA.length + 1 - 1 = restA.length := by omega
              rw [hsub1]
            refine ⟨dead, ctx1, ?_, ?_, ?_, hsubB⟩
            · simp only [mergeBy, scanFrames, hstep]
              rw [hscan, haF]
              simp [stAcc, payloadConcat, List.append_assoc]
            · simp only [mergeBy, List.length_cons]
              intro j hj1 hj2
              rcases Nat.eq_or_lt_of_le hj1 with rfl | hlt
              · exact hsubA (by simp [stIdx])
              · exact hcov j hlt (by omega)
            · intro j hj
              exact hsubA (by
                simp only [stIdx]
                exact Finset.mem_insert_of_mem (by simpa [stIdx] using hj))
    | false =>
      rcases remB with _ | ⟨fB, restB⟩
      · exfalso
        have hc1 : sc.count true = remA.length := by
          rw [List.count_cons_of_ne (by decide)] at hcount
          exact hcount
        have hc2 : sc.length + 1 = remA.length := by
          simp only [List.length_cons, List.length_nil] at hlen
          omega
        have hc3 := List.count_le_length (a := true) (l := sc)
        omega
      · rcases stB with _ | ⟨CB, b⟩
        · cases hstB with
          | single p hp =>
            have hc1 : sc.count true = remA.length := by
              rw [List.count_cons_of_ne (by decide)] at hcount
              exact hcount
            have hc2 : sc.length = remA.length := by
              simp only [List.length_cons, List.length_nil] at hlen
              omega
            have hmerge : mergeBy sc remA ([] : List (Frame K)) = remA :=
              merge_nil_right sc remA hc1 hc2
            have hstep := broadcastStep_complete_hdr d sB LB p.length p i ctx hp
            obtain ⟨dead, ctx1, hscan, hcov, hsubB, hsubA⟩ :=
              scan_complete_then_single d sA LA _ remA stA i ctx ctx {i} (d p)
                hstep (Finset.mem_singleton_self i) hstA hctxA hbA
            have hframes : mergeBy (false :: sc) remA
                [((FromServer.Broadcast sB LB p.length : FromServer K), p)] =
                ((FromServer.Broadcast sB LB p.length : FromServer K), p) :: remA := by
              simp only [mergeBy]
              rw [hmerge]
            refine ⟨dead, ctx1, ?_, ?_, hsubA, ?_⟩
            · rw [hframes, hscan]
              simp [aFirst, stAcc, payloadConcat]
            · simp only [hframes]
              exact hcov
            · simp [stIdx]
          | multi p restB hp hfr =>
            have hstep := broadcastStep_begin d sB LB p.length p i ctx hp
            have hcB2 : ctxInsert ctx sB ⟨{i}, LB, p⟩ sB =
                stCtx LB (some ({i}, p)) := by
              simp [ctxInsert, stCtx]
            have hcA2 : ctxInsert ctx sB ⟨{i}, LB, p⟩ sA = stCtx LA stA := by
              unfold ctxInsert
              rw [if_neg hne]
              exact hctxA
            obtain ⟨dead, ctx1, hscan, hcov, hsubA, hsubB⟩ :=
              ih remA restB stA (some ({i}, p)) (i + 1)
                (ctxInsert ctx sB ⟨{i}, LB, p⟩) hstA hfr
                (by rw [List.count_cons_of_ne (by decide)] at hcount
                    exact hcount)
                (by simp only [List.length_cons] at hlen
                    omega)
                hcA2 hcB2
                (fun j hj => by have := hbA j hj; omega)
                (by intro j hj
                    simp only [stIdx, Finset.mem_singleton] at hj
                    omega)
            have hlenB : 1 ≤ restB.length := List.length_pos.mpr (Frags_ne_nil hfr)
            have haF : aFirst (false :: sc) remA.length
                ((FromServer.Broadcast sB LB p.length, p) :: restB).length =
                aFirst sc remA.length restB.length := by
              simp only [aFirst, List.length_cons]
              rw [if_neg (by omega)]
              have hsub1 : restB.length + 1 - 1 = restB.length := by omega
              rw [hsub1]
            refine ⟨dead, ctx1, ?_, ?_, hsubA, ?_⟩
            · simp only [mergeBy, scanFrames, hstep]
              rw [hscan, haF]
              simp [stAcc, payloadConcat]
            · simp only [mergeBy, List.length_cons]
              intro j hj1 hj2
              rcases Nat.eq_or_lt_of_le hj1 with rfl | hlt
              · exact hsubB (by simp [stIdx])
              · exact hcov j hlt (by omega)
            · simp [stIdx]
        · have hctxB2 : ctx sB = some ⟨CB, LB, b⟩ := hctxB
          cases hstB with
          | last a2 p hp =>
            have hc1 : sc.count true = remA.length := by
              rw [List.count_cons_of_ne (by decide)] at hcount
              exact hcount
            have hc2 : sc.length = remA.length := by
              simp only [List.length_cons, List.length_nil] at hlen
              omega
            have hmerge : mergeBy sc remA ([] : List (Frame K)) = remA :=
              merge_nil_right sc remA hc1 hc2
            have hstep := broadcastStep_frag_complete d hctxB2 p.length p hp i
            have hctxA2 : ctxErase ctx sB sA = stCtx LA stA := by
              unfold ctxErase
              rw [if_neg hne]
              exact hctxA
            obtain ⟨dead, ctx1, hscan, hcov, hsubB, hsubA⟩ :=
              scan_complete_then_single d sA LA _ remA stA i ctx
                (ctxErase ctx sB) (insert i CB) (d (b ++ p)) hstep
                (Finset.mem_insert_self i CB) hstA hctxA2 hbA
            have hframes : mergeBy (false :: sc) remA
                [((FromServer.BroadcastPayload sB p.length : FromServer K), p)] =
                ((FromServer.BroadcastPayload sB p.length : FromServer K), p) :: remA := by
              simp only [mergeBy]
              rw [hmerge]
            refine ⟨dead, ctx1, ?_, ?_, hsubA, ?_⟩
            · rw [hframes, hscan]
              simp [aFirst, stAcc, payloadConcat]
            · simp only [hframes]
              exact hcov
            · intro j hj
              exact hsubB (Finset.mem_insert_of_mem (by simpa [stIdx] using hj))
          | cons a2 p restB hp hfr =>
            have hstep := broadcastStep_frag_continue d hctxB2 p.length p hp i
            have hcB2 : ctxInsert ctx sB ⟨insert i CB, LB, b ++ p⟩ sB =
                stCtx LB (some (insert i CB, b ++ p)) := by
              simp [ctxInsert, stCtx]
            have hcA2 : ctxInsert ctx sB ⟨insert i CB, LB, b ++ p⟩ sA =
                stCtx LA stA := by
              unfold ctxInsert
              rw [if_neg hne]
              exact hctxA
            obtain ⟨dead, ctx1, hscan, hcov, hsubA, hsubB⟩ :=
              ih remA restB stA (some (insert i CB, b ++ p)) (i + 1)
                (ctxInsert ctx sB ⟨insert i CB, LB, b ++ p⟩) hstA hfr
                (by rw [List.count_cons_of_ne (by decide)] at hcount
                    exact hcount)
                (by simp only [List.length_cons] at hlen
                    omega)
                hcA2 hcB2
                (fun j hj => by have := hbA j hj; omega)
                (by intro j hj
                    simp only [stIdx] at hj
                    rcases Finset.mem_insert.mp hj with h | h
                    · omega
                    · have := hbB j (by simpa [stIdx] using h); omega)
            have hlenB : 1 ≤ restB.length := List.length_pos.mpr (Frags_ne_nil hfr)
            have haF : aFirst (false :: sc) remA.length
                ((FromServer.BroadcastPayload sB p.length, p) :: restB).length =
                aFirst sc remA.length restB.length := by
              simp only [aFirst, List.length_cons]
              rw [if_neg (by omega)]
              have hsub1 : restB.length + 1 - 1 = restB.length := by omega
              rw [hsub1]
            refine ⟨dead, ctx1, ?_, ?_, hsubA, ?_⟩
            · simp only [mergeBy, scanFrames, hstep]
              rw [hscan, haF]
              simp [stAcc, payloadConcat, List.append_assoc]
            · simp only [mergeBy, List.length_cons]
              intro j hj1 hj2
              rcases Nat.eq_or_lt_of_le hj1 with rfl | hlt
              · exact hsubB (by simp [stIdx])
              · exact hcov j hlt (by omega)
            · intro j hj
              exact hsubB (by
                simp only [stIdx]
                exact Finset.mem_insert_of_mem (by simpa [stIdx] using hj))

/-- C2: for every interleaving (given by a boolean schedule) of two
complete broadcast streams from distinct sources `A` and `B`, one
non-blocking `get_broadcasts` call over the queue-plus-channel view
returns exactly two values, one per source, each the deserialization of
that source's concatenated payload bytes in fragment order, ordered by
which source's completing fragment occurs first in the scanned sequence;
the final buffer is empty. -/
theorem claim_C2 {K M : Type} [DecidableEq K] (des : List Nat → Option M)
    (sA sB : K) (LA LB : Nat) (hne : sA ≠ sB)
    (streamA streamB queue temp : List (Frame K)) (sched : List Bool)
    (hA : BStream sA LA streamA) (hB : BStream sB LB streamB)
    (hcount : sched.count true = streamA.length)
    (hlen : sched.length = streamA.length + streamB.length)
    (hq : queue ++ temp = mergeBy sched streamA streamB) :
    get_broadcasts des queue temp =
      ((if aFirst sched streamA.length streamB.length = true
        then [des (payloadConcat streamA), des (payloadConcat streamB)]
        else [des (payloadConcat streamB), des (payloadConcat streamA)]),
       []) := by
  obtain ⟨dead, ctx1, hscan, hcov, hsubA, hsubB⟩ :=
    scan_two_streams des sA sB LA LB hne sched streamA streamB none none 0
      ctxEmpty hA hB hcount hlen rfl rfl (by simp [stIdx]) (by simp [stIdx])
  unfold get_broadcasts
  rw [remove_messages_eq_rebuild (broadcastStep_bounded des) queue temp]
  unfold remove_messages_rebuild
  simp only []
  rw [hq, hscan]
  unfold filterIndexes
  rw [filterIdxFrom_nil_of (mergeBy sched streamA streamB) 0
    (fun j hj1 hj2 => hcov j hj1 (by simpa using hj2))]
  simp [stAcc]

theorem claim_C2_witness :
    get_broadcasts (K := Nat) desN
      [(FromServer.Broadcast 1 2 1, [10]), (FromServer.Broadcast 2 2 1, [20]),
       (FromServer.BroadcastPayload 1 1, [11]),
       (FromServer.BroadcastPayload 2 1, [21])] [] =
      ([desN [10, 11], desN [20, 21]], []) := by
  have h := claim_C2 desN 1 2 2 2 (by decide)
    [(FromServer.Broadcast 1 2 1, [10]), (FromServer.BroadcastPayload 1 1, [11])]
    [(FromServer.Broadcast 2 2 1, [20]), (FromServer.BroadcastPayload 2 1, [21])]
    [(FromServer.Broadcast 1 2 1, [10]), (FromServer.Broadcast 2 2 1, [20]),
     (FromServer.BroadcastPayload 1 1, [11]),
     (FromServer.BroadcastPayload 2 1, [21])] []
    [true, false, true, false]
    (BStream.multi [10] [(FromServer.BroadcastPayload 1 1, [11])] (by decide)
      (Frags.last [10] [11] (by decide)))
    (BStream.multi [20] [(FromServer.BroadcastPayload 2 1, [21])] (by decide)
      (Frags.last [20] [21] (by decide)))
    (by decide) (by decide) (by decide)
  simpa [payloadConcat, aFirst] using h

/-- C3: for every extraction - the non-blocking
`remove_messages_from_queue` and the blocking
`remove_next_message_from_queue` - run with a stepping closure that only
consumes indexes it has seen (true of every closure in the file), the
resulting persistent buffer is extensionally the unconditional rebuild:
the pre-extraction concatenation of buffer and drained/read channel
items with exactly the consumed indexes removed.  In particular the
unchanged fast paths skip the rebuild only in states where the rebuild
would have been an identity. -/
theorem claim_C3 {K RET RET2 : Type} [DecidableEq K] {c : StepFn K RET}
    {c2 : StepFn K RET2} (hc : StepBounded c) (hc2 : StepBounded c2)
    (q t : List (Frame K)) (f : Nat → CtxMap K → RET2)
    (q2 chan : List (Frame K)) :
    remove_messages_from_queue c q t = remove_messages_rebuild c q t ∧
    remove_next_message_from_queue c2 f q2 chan = remove_next_rebuild c2 f q2 chan :=
  ⟨remove_messages_eq_rebuild hc q t, remove_next_eq_rebuild hc2 f q2 chan⟩

theorem claim_C3_witness :
    remove_messages_from_queue (broadcastStep (K := Nat) desN)
        [] [(FromServer.Broadcast 1 1 1, [5])] =
      remove_messages_rebuild (broadcastStep desN)
        [] [(FromServer.Broadcast 1 1 1, [5])] ∧
    remove_next_message_from_queue (broadcastStep (K := Nat) (deserNE desN))
        (fun _ _ => Except.error NetworkError.ChannelDisconnected)
        [] [(FromServer.Broadcast 1 1 1, [5])] =
      remove_next_rebuild (broadcastStep (deserNE desN))
        (fun _ _ => Except.error NetworkError.ChannelDisconnected)
        [] [(FromServer.Broadcast 1 1 1, [5])] :=
  claim_C3 (broadcastStep_bounded desN) (broadcastStep_bounded (deserNE desN))
    [] [(FromServer.Broadcast 1 1 1, [5])]
    (fun _ _ => Except.error NetworkError.ChannelDisconnected)
    [] [(FromServer.Broadcast 1 1 1, [5])]

/-- C4 counterexample: a `Broadcast` frame whose payload (2 bytes)
exceeds its declared `message_len` (1) is NOT removed by the extraction:
the closure merely skips it, so it stays in the buffer and is seen again
by every later extraction, refuting the claim that the offending frame
is removed and not seen by later extractions. -/
theorem claim_C4_cex :
    get_broadcasts (K := Nat) desN [(FromServer.Broadcast 1 1 2, [7, 7])] [] =
      ([], [(FromServer.Broadcast 1 1 2, [7, 7])]) := by decide

/-- C4 (amended): for oversized begin frames, for continuation fragments
that make the accumulated length exceed `message_len`, and for orphan
payload fragments with no in-progress context, the stepping closures
(broadcast and direct alike) log, produce no result and surface no error
- the outcome is `Skip` - discarding the in-progress context in the
overflow-continuation case; the offending frame is left in the buffer
(not removed), and the extraction pass continues over the remaining
frames (final conjunct: a concrete pass with an oversized frame followed
by a valid broadcast still returns the valid message and retains the bad
frame). -/
theorem claim_C4 {K RET : Type} [DecidableEq K] (d : List Nat → RET)
    (src : K) (L pl : Nat) (payload : List Nat) (i : Nat) (ctx : CtxMap K)
    (c0 : MsgStepContext) :
    (L < payload.length →
      broadcastStep d (FromServer.Broadcast src L pl, payload) i ctx =
        (MsgStepOutcome.Skip, ctx) ∧
      directStep d (FromServer.Direct src L pl, payload) i ctx =
        (MsgStepOutcome.Skip, ctx)) ∧
    (ctx src = some c0 → c0.accumulated_stream ≠ [] →
      c0.message_len < c0.accumulated_stream.length + payload.length →
      broadcastStep d (FromServer.BroadcastPayload src pl, payload) i ctx =
        (MsgStepOutcome.Skip, ctxErase ctx src) ∧
      directStep d (FromServer.DirectPayload src pl, payload) i ctx =
        (MsgStepOutcome.Skip, ctxErase ctx src)) ∧
    (ctx src = none →
      broadcastStep d (FromServer.BroadcastPayload src pl, payload) i ctx =
        (MsgStepOutcome.Skip, ctx) ∧
      directStep d (FromServer.DirectPayload src pl, payload) i ctx =
        (MsgStepOutcome.Skip, ctx)) ∧
    get_broadcasts (K := Nat) desN
      [(FromServer.Broadcast 1 1 2, [7, 7]), (FromServer.Broadcast 2 1 1, [5])] [] =
      ([some 5], [(FromServer.Broadcast 1 1 2, [7, 7])]) := by
  refine ⟨?_, ?_, ?_, by decide⟩
  · intro hL
    constructor
    · simp only [broadcastStep]
      rw [if_neg (by omega), if_pos hL]
    · simp only [directStep]
      rw [if_neg (by omega), if_pos hL]
  · intro hctx hne hover
    constructor
    · simp only [broadcastStep, hctx]
      rw [if_neg (fun hcontra => hne hcontra.1),
        if_neg (by simp only [List.length_append]; omega),
        if_pos (by simp only [List.length_append]; omega)]
    · simp only [directStep, hctx]
      rw [if_neg (fun hcontra => hne hcontra.1),
        if_neg (by simp only [List.length_append]; omega),
        if_pos (by simp only [List.length_append]; omega)]
  · intro hctx
    constructor
    · simp only [broadcastStep, hctx]
    · simp only [directStep, hctx]

theorem claim_C4_witness :
    broadcastStep (K := Nat) desN (FromServer.Broadcast 1 1 2, [7, 7]) 0 ctxEmpty =
      (MsgStepOutcome.Skip, ctxEmpty) :=
  ((claim_C4 desN 1 1 2 [7, 7] 0 ctxEmpty ⟨∅, 0, []⟩).1 (by decide)).1

/-- C5 counterexample: start from a running driver; after `shut_down`
stores `running = false`, the next driver-loop check exits the task
(dropping the receiver of the outbound queue), and a subsequent
`Inner::broadcast` hits `.expect("Background thread exited")`: it panics
instead of resolving or erroring cleanly, refuting the claim that every
subsequent facade operation completes without panicking. -/
theorem claim_C5_cex :
    outbound_send (driverStep (shut_down
      { running := true, exited := false, connected := true, connects := 1 })) =
      CallOutcome.panics "Background thread exited" := rfl

/-- C5 (amended): after `shut_down` stores `running = false`, the
background driver starts no further reconnect attempts -
`create_connection` is never invoked again over any number of driver
steps; however, a facade operation that enqueues on the outbound queue
(`broadcast`, `direct` to a non-self target, `request_client_count`)
panics with "Background thread exited" once the driver task has exited,
and completes normally only while the task is still alive. -/
theorem claim_C5 (s : DriverState) (n : Nat) :
    (driverStep^[n] (shut_down s)).connects = s.connects ∧
    ((driverStep^[n] (shut_down s)).exited = true →
      outbound_send (driverStep^[n] (shut_down s)) =
        CallOutcome.panics "Background thread exited") ∧
    ((driverStep^[n] (shut_down s)).exited = false →
      outbound_send (driverStep^[n] (shut_down s)) =
        CallOutcome.completes ()) := by
  have hrun : (shut_down s).running = false := rfl
  obtain ⟨h1, _⟩ := driver_stays_shut n (shut_down s) hrun
  refine ⟨h1, ?_, ?_⟩
  · intro hex
    unfold outbound_send
    simp [hex]
  · intro hex
    unfold outbound_send
    simp [hex]

theorem claim_C5_witness :
    (driverStep^[1] (shut_down
      { running := true, exited := false, connected := true, connects := 1 })).connects = 1 ∧
    outbound_send (driverStep^[1] (shut_down
      { running := true, exited := false, connected := true, connects := 1 })) =
      CallOutcome.panics "Background thread exited" :=
  ⟨(claim_C5 ⟨true, false, true, 1⟩ 1).1,
   (claim_C5 ⟨true, false, true, 1⟩ 1).2.1 (by decide)⟩

/-- C6: on entry into every connection attempt the worker first
transmits `Identify{own_key}`, only then sets `connected = true`, then -
exactly when the pending-count-waiter list is non-empty - re-sends
`RequestClientCount`, before entering the multiplex loop (the two trace
equalities pin the exact order); and when the worker exits with an
error, the driver resets `connected = false` and starts another
connection attempt provided `running` is still true. -/
theorem claim_C6 {K : Type} (key : K) (w : Bool) (s : DriverState) :
    (w = true → run_background_prelude key w =
      [WorkerEvent.sentToServer (ToServer.Identify key),
       WorkerEvent.setConnected true,
       WorkerEvent.sentToServer ToServer.RequestClientCount,
       WorkerEvent.enteredLoop]) ∧
    (w = false → run_background_prelude key w =
      [WorkerEvent.sentToServer (ToServer.Identify key),
       WorkerEvent.setConnected true,
       WorkerEvent.enteredLoop]) ∧
    (s.exited = false → s.running = true →
      driverStep s = { s with connects := s.connects + 1, connected := false }) := by
  refine ⟨?_, ?_, ?_⟩
  · intro hw
    simp [run_background_prelude, hw]
  · intro hw
    simp [run_background_prelude, hw]
  · intro he hr
    simp [driverStep, he, hr]

theorem claim_C6_witness :
    run_background_prelude (0 : Nat) true =
      [WorkerEvent.sentToServer (ToServer.Identify 0),
       WorkerEvent.setConnected true,
       WorkerEvent.sentToServer ToServer.RequestClientCount,
       WorkerEvent.enteredLoop] ∧
    driverStep { running := true, exited := false, connected := true, connects := 3 } =
      { running := true, exited := false, connected := false, connects := 4 } :=
  ⟨(claim_C6 (0 : Nat) true ⟨true, false, true, 3⟩).1 rfl,
   by
    have h := (claim_C6 (0 : Nat) true ⟨true, false, true, 3⟩).2.2 rfl rfl
    simpa using h⟩

/-- C7: `direct_message(own_key, m)` enqueues nothing on the outbound
queue and pushes exactly one loopback `FromServer::Direct` frame with
`source = own_key` and `payload_len = message_len` equal to the
serialized length, so that a subsequent blocking
`get_next_direct_message` extracting that frame returns `m`. -/
theorem claim_C7 {K M : Type} [DecidableEq K] (des : List Nat → Option M)
    (own : K) (msg : List Nat) (m : M) (h : des msg = some m)
    (sending : List (ToServer K × List Nat)) (receiving : List (Frame K)) :
    direct_message own own msg sending receiving =
      (sending,
        receiving ++ [(FromServer.Direct own msg.length msg.length, msg)]) ∧
    get_next_direct_message des []
      [(FromServer.Direct own msg.length msg.length, msg)] =
      (Except.ok m, []) := by
  constructor
  · simp [direct_message]
  · unfold get_next_direct_message remove_next_message_from_queue
    simp only [scanQueuePhase, List.length_nil]
    unfold chanPhase
    simp [directStep, deserNE, h]

theorem claim_C7_witness :
    direct_message (0 : Nat) 0 [3] [] [] =
      ([], [(FromServer.Direct 0 1 1, [3])]) ∧
    get_next_direct_message desN [] [(FromServer.Direct 0 1 1, [3])] =
      (Except.ok 3, []) := by
  have h := claim_C7 desN (0 : Nat) [3] 3 (by decide) [] []
  simpa using h

/-- C8: when bincode deserialization fails on a completed reassembly the
failure is recorded per-message and the extraction continues: a
completing begin frame yields `Complete` carrying whatever the
deserializer returned (first conjunct), a concrete pass with a failing
message followed by a succeeding one returns both results and consumes
both frames (third conjunct), and the facade `broadcast_queue` coerces
any single per-message failure into a batch-level `FailedToDeserialize`
(second and fourth conjuncts). -/
theorem claim_C8 {K M RET : Type} [DecidableEq K] (d : List Nat → RET)
    (des : List Nat → Option M)
    (src : K) (L pl : Nat) (payload : List Nat) (i : Nat) (ctx : CtxMap K)
    (q t : List (Frame K)) :
    (payload.length = L →
      broadcastStep d (FromServer.Broadcast src L pl, payload) i ctx =
        (MsgStepOutcome.Complete {i} (d payload), ctx)) ∧
    (none ∈ (get_broadcasts des q t).1 →
      (broadcast_queue des q t).1 = Except.error NetworkError.FailedToDeserialize) ∧
    get_broadcasts (K := Nat) desN
      [(FromServer.Broadcast 1 0 0, []), (FromServer.Broadcast 2 1 1, [9])] [] =
      ([none, some 9], []) ∧
    broadcast_queue (K := Nat) desN
      [(FromServer.Broadcast 1 0 0, []), (FromServer.Broadcast 2 1 1, [9])] [] =
      (Except.error NetworkError.FailedToDeserialize, []) := by
  refine ⟨?_, ?_, by decide, by rfl⟩
  · intro hL
    simp only [broadcastStep]
    rw [if_neg (by omega), if_neg (by omega)]
  · intro hmem
    unfold broadcast_queue
    simp only []
    rw [collectResults_none _ hmem]

theorem claim_C8_witness :
    broadcastStep (K := Nat) desN (FromServer.Broadcast 1 1 1, [5]) 0 ctxEmpty =
      (MsgStepOutcome.Complete {0} (desN [5]), ctxEmpty) ∧
    (broadcast_queue (K := Nat) desN [(FromServer.Broadcast 1 0 0, [])] []).1 =
      Except.error NetworkError.FailedToDeserialize :=
  ⟨(claim_C8 desN desN 1 1 1 [5] 0 ctxEmpty [] []).1 (by decide),
   (claim_C8 desN desN 1 1 1 [5] 0 ctxEmpty
      [(FromServer.Broadcast 1 0 0, [])] []).2.1 (by decide)⟩

/-- C9: when a new `Broadcast` begin frame with payload shorter than
`message_len` arrives for a source that already has an in-progress
context, the insertion replaces the old context and the fresh context
records only the new frame's index (first conjunct); concretely, the
replaced partial's header frame is not consumed by the later completion,
which consumes only the new begin frame and its own continuation
fragment (second conjunct). -/
theorem claim_C9 {K RET : Type} [DecidableEq K] (d : List Nat → RET)
    (src : K) (L pl : Nat) (payload : List Nat) (i : Nat) (ctx : CtxMap K)
    (c_old : MsgStepContext) :
    (ctx src = some c_old → payload.length < L →
      broadcastStep d (FromServer.Broadcast src L pl, payload) i ctx =
        (MsgStepOutcome.Begin, ctxInsert ctx src ⟨{i}, L, payload⟩)) ∧
    get_broadcasts (K := Nat) desN
      [(FromServer.Broadcast 1 10 2, [1, 2]),
       (FromServer.Broadcast 1 4 2, [3, 4]),
       (FromServer.BroadcastPayload 1 2, [5, 6])] [] =
      ([some 3], [(FromServer.Broadcast 1 10 2, [1, 2])]) := by
  refine ⟨?_, by decide⟩
  intro hctx hlen
  simp only [broadcastStep]
  rw [if_pos hlen]

theorem claim_C9_witness :
    broadcastStep (K := Nat) desN (FromServer.Broadcast 1 4 2, [3, 4]) 6
        (ctxInsert ctxEmpty 1 ⟨{5}, 10, [9]⟩) =
      (MsgStepOutcome.Begin,
        ctxInsert (ctxInsert ctxEmpty 1 ⟨{5}, 10, [9]⟩) 1 ⟨{6}, 4, [3, 4]⟩) :=
  (claim_C9 desN 1 4 2 [3, 4] 6 (ctxInsert ctxEmpty 1 ⟨{5}, 10, [9]⟩)
    ⟨{5}, 10, [9]⟩).1 (by simp [ctxInsert]) (by decide)

/-- C10: frames are removed from the buffer-plus-channel view only as
part of a `Complete` outcome: a non-blocking extraction that yields no
result leaves every frame in place in order (first conjunct); and when
the blocking extract's channel closes without any match, all items it
read from the channel are appended back onto the persistent buffer and
the `ChannelDisconnected` failure is returned, so no frame is lost on
the error path (second conjunct). -/
theorem claim_C10 {K RET M : Type} [DecidableEq K] (c : StepFn K RET)
    (q t : List (Frame K)) (des : List Nat → Option M)
    (q2 chan : List (Frame K)) :
    ((remove_messages_from_queue c q t).1 = [] →
      (remove_messages_from_queue c q t).2 = q ++ t) ∧
    ((scanFrames (broadcastStep (K := K) (deserNE des)) (q2 ++ chan) 0 ctxEmpty).1 = [] →
      get_next_broadcast des q2 chan =
        (Except.error NetworkError.ChannelDisconnected, q2 ++ chan)) := by
  constructor
  · intro h
    have hs : (scanFrames c (q ++ t) 0 ctxEmpty).1 = [] := by
      rw [← remove_messages_fst c q t]
      exact h
    have hdead := scanFrames_no_results_dead (q ++ t) 0 ctxEmpty hs
    unfold remove_messages_from_queue
    simp only []
    split
    case isTrue hu =>
      rcases hu with ⟨hd, ht⟩ | ⟨hmin, hcard⟩
      · subst ht
        simp
      · rw [hdead] at hmin
        rw [Finset.min_empty] at hmin
        exact absurd hmin.symm (WithTop.coe_ne_top)
    case isFalse hu =>
      rw [hdead]
      unfold filterIndexes
      rw [filterIdxFrom_empty]
  · intro h
    obtain ⟨h1, h2⟩ :=
      scanFrames_append_results_nil q2 chan 0 ctxEmpty h
    unfold get_next_broadcast remove_next_message_from_queue
    rw [scanQueuePhase_none_of_nil_results q2 0 ctxEmpty h1]
    show chanPhase (broadcastStep (deserNE des))
        (fun _ _ => Except.error NetworkError.ChannelDisconnected) q2 q2.length []
        chan (scanFrames (broadcastStep (deserNE des)) q2 0 ctxEmpty).2.2 =
      (Except.error NetworkError.ChannelDisconnected, q2 ++ chan)
    have h2' : (scanFrames (broadcastStep (K := K) (deserNE des)) chan
        (q2.length + ([] : List (Frame K)).length)
        (scanFrames (broadcastStep (deserNE des)) q2 0 ctxEmpty).2.2).1 = [] := by
      have harith : q2.length + ([] : List (Frame K)).length = 0 + q2.length := by
        simp
      rw [harith]
      exact h2
    obtain ⟨n, ctx1, heq⟩ := chanPhase_all_fail
      (fun _ _ => Except.error NetworkError.ChannelDisconnected) q2 chan []
      (scanFrames (broadcastStep (deserNE des)) q2 0 ctxEmpty).2.2 h2'
    rw [heq]
    simp

theorem claim_C10_witness :
    (remove_messages_from_queue (broadcastStep (K := Nat) desN)
        [(FromServer.Start, [])] []).2 =
      [(FromServer.Start, [])] ++ [] ∧
    get_next_broadcast (K := Nat) desN [] [(FromServer.Start, [])] =
      (Except.error NetworkError.ChannelDisconnected,
        [] ++ [(FromServer.Start, [])]) :=
  ⟨(claim_C10 (broadcastStep desN) [(FromServer.Start, [])] [] desN
      [] [(FromServer.Start, [])]).1 (by decide),
   (claim_C10 (broadcastStep desN) [(FromServer.Start, [])] [] desN
      [] [(FromServer.Start, [])]).2 (by rfl)⟩

end CS
